import Mathlib

/-!
Verification of the core of the `gissleh/irc` Go IRC client library against
its natural-language specification.

The Go code is shallowly embedded: Go strings are modelled as `List Char`
(valid UTF-8; byte positions that the Go code inspects are always ASCII, so
char-level splitting coincides with byte-level splitting, and Go's bytewise
string comparison coincides with codepoint-lexicographic comparison because
UTF-8 is order preserving).  Byte lengths are recovered with
`Char.utf8Size`.  Go slice/string index operations that can panic are
modelled with `Option`/an explicit `panicked` constructor.  Go maps are
modelled as association lists (lookup by first match, insert-or-replace,
delete), which is observationally exact for the lookups the code performs.
-/

namespace IrcProof

/-- Go string, as a list of codepoints of a valid UTF-8 string. -/
abbrev GoStr := List Char

/-- Shorthand turning a Lean string literal into the `GoStr` model. -/
def gs (s : String) : GoStr := s.data

/-- Byte length of a Go string (`len(s)` on valid UTF-8 data). -/
def byteLen (s : GoStr) : Nat := (s.map Char.utf8Size).sum

/-- The zero value of Go's `rune` type. -/
def runeZero : Char := Char.ofNat 0

/-- Go `strings.Split(s, sep)` for a one-byte separator: full split. -/
def splitCh (sep : Char) : GoStr → List GoStr
  | [] => [[]]
  | c :: rest =>
    match splitCh sep rest with
    | [] => [[c]]
    | r :: rs => if c = sep then [] :: r :: rs else (c :: r) :: rs

/-- Go `strings.SplitN(s, sep, 2)` for a one-byte separator: `none` when the
separator does not occur (Go would return a one-element slice), otherwise
the parts before and after the first occurrence. -/
def splitN2Ch (sep : Char) : GoStr → Option (GoStr × GoStr)
  | [] => none
  | c :: rest =>
    if c = sep then some ([], rest)
    else match splitN2Ch sep rest with
      | none => none
      | some (l, r) => some (c :: l, r)

/-- Go `strings.SplitN(s, sep, 2)` for a multi-byte separator. -/
def splitN2Seq (sep : GoStr) : GoStr → Option (GoStr × GoStr)
  | [] => none
  | c :: rest =>
    if sep.isPrefixOf (c :: rest) then some ([], (c :: rest).drop sep.length)
    else match splitN2Seq sep rest with
      | none => none
      | some (l, r) => some (c :: l, r)

/-- Go `strings.ContainsRune` / `strings.Contains` with a one-rune needle. -/
def containsCh (s : GoStr) (c : Char) : Bool := s.contains c

/-- Go `strings.ToLower` restricted to ASCII letters; the nicks and keys the
library folds are ASCII. -/
def toLowerStr (s : GoStr) : GoStr := s.map Char.toLower

/-- Go `strings.ToUpper` restricted to ASCII letters. -/
def toUpperStr (s : GoStr) : GoStr := s.map Char.toUpper

/-- Go bytewise string comparison `a < b` (codepoint order on valid UTF-8;
`Char` order is codepoint order). -/
def strLtB : GoStr → GoStr → Bool
  | _, [] => false
  | [], _ :: _ => true
  | a :: as, b :: bs =>
    if a < b then true
    else if b < a then false
    else strLtB as bs

/-- Association-list model of a Go map: lookup. -/
def mapGet {κ α : Type} [DecidableEq κ] (m : List (κ × α)) (k : κ) : Option α :=
  (m.find? (fun p => p.1 = k)).map (fun p => p.2)

/-- Association-list model of a Go map: insert or replace. -/
def mapSet {κ α : Type} [DecidableEq κ] (m : List (κ × α)) (k : κ) (v : α) : List (κ × α) :=
  if (m.find? (fun p => p.1 = k)).isSome then
    m.map (fun p => if p.1 = k then (k, v) else p)
  else m ++ [(k, v)]

/-- Association-list model of a Go map: delete. -/
def mapDel {κ α : Type} [DecidableEq κ] (m : List (κ × α)) (k : κ) : List (κ × α) :=
  m.filter (fun p => ¬(p.1 = k))

end IrcProof

namespace IrcProof

/-! ### Events (`event.go`)

`NewEvent(kind, verb)` stores `kind`, `verb` and the derived
`name = kind + "." + verb`. -/

/-- Name derivation performed by `NewEvent` in `event.go`. -/
def eventName (kind verb : String) : String := kind ++ "." ++ verb

/-! ### The dispatcher's periodic ticker (`client.go`, `handleEventLoop`)

Every 30 seconds `handleEventLoop` executes
`event := NewEvent("client", "tick")` and passes it to `handleEvent`. -/

/-- Name of the event the 30-second ticker in `handleEventLoop` injects:
`NewEvent("client", "tick")`. -/
def tickerEventName : String := eventName "client" "tick"

/-- Nanoseconds in a second (`time.Second`). -/
def nsPerSecond : Nat := 1000000000

/-- Projection of `handleEvent`: the `case "hook.tick"` arm sends a `PING`
exactly when the event name is `"hook.tick"` and strictly more than 120
seconds (`time.Since(client.lastSend) > time.Second*120`) have passed since
the last outbound write. -/
def handleEventSendsKeepalivePing (name : String) (elapsedNs : Nat) : Bool :=
  name == "hook.tick" && decide (elapsedNs > 120 * nsPerSecond)

/-! ### ISUPPORT state and `ModeTakesArgument` (`isupport/isupport.go`) -/

/-- The decoded part of `isupport.State` used by mode queries. -/
structure SupportState where
  modeOrder : GoStr
  prefixOrder : GoStr
  prefixToMode : List (Char × Char)
  channelModes : List GoStr
  rawPairs : List (GoStr × GoStr)
deriving Repr, DecidableEq

/-- Empty ISUPPORT state (all zero values, as after `Reset`). -/
def SupportState.empty : SupportState := ⟨[], [], [], [], []⟩

/-- Go map read `state.Prefixes[ch]` (zero rune when absent). -/
def SupportState.modeOf (su : SupportState) (ch : Char) : Char :=
  ((su.prefixToMode.find? (fun p => p.1 = ch)).map (fun p => p.2)).getD runeZero

/-- Embedding of `ISupport.ModeTakesArgument`.  `none` models the panic Go
would raise indexing `state.ChannelModes` when the block is missing; the
access order mirrors the short-circuit evaluation in the source, including
the source's test of block index 1 (category B) where its comment speaks of
category C. -/
def modeTakesArgument (su : SupportState) (flag : Char) (plus : Bool) : Option Bool :=
  if containsCh su.modeOrder flag then some true
  else
    match su.channelModes.get? 0 with
    | none => none
    | some blockA =>
      if containsCh blockA flag then some true
      else
        match su.channelModes.get? 1 with
        | none => none
        | some blockB =>
          if containsCh blockB flag then some true
          else if plus && containsCh blockB flag then some true
          else some false

/-- The ISUPPORT state produced by feeding `PREFIX=(ov)@+` and
`CHANMODES=eIbq,k,flj,CFLNPQcgimnprstz` (the values in the repository's own
test data) through `ISupport.Set`. -/
def testSupport : SupportState :=
  { modeOrder := gs "ov"
    prefixOrder := gs "@+"
    prefixToMode := [('@', 'o'), ('+', 'v')]
    channelModes := [gs "eIbq", gs "k", gs "flj", gs "CFLNPQcgimnprstz"]
    rawPairs := [(gs "PREFIX", gs "(ov)@+"), (gs "CHANMODES", gs "eIbq,k,flj,CFLNPQcgimnprstz")] }

/-! ### The `packet.nick` arm of `handleEvent` (`client.go`) -/

/-- The client fields involved in nick bookkeeping: the `nick` field that
`Client.Nick()` returns, and the ad-hoc `values` map behind
`Value`/`SetValue`. -/
structure ClientNickState where
  nick : String
  values : List (GoStr × String)
deriving Repr, DecidableEq

/-- Embedding of `Client.SetValue(key, value)`. -/
def clientSetValue (st : ClientNickState) (key : GoStr) (value : String) : ClientNickState :=
  { st with values := mapSet st.values key value }

/-- Embedding of `Client.Nick()`. -/
def clientNick (st : ClientNickState) : String := st.nick

/-- Embedding of the `case "packet.nick"` arm of `handleEvent` as far as it
touches client state: when the event source nick equals the client's nick it
runs `client.SetValue("nick", event.Arg(0))`.  (The `handleInTargets` fan-out
only mutates per-channel userlists, not these fields.) -/
def handlePacketNick (st : ClientNickState) (evNick arg0 : String) : ClientNickState :=
  if evNick = st.nick then clientSetValue st (gs "nick") arg0 else st

/-! ### The packet parser (`event_packet.go`, `ParsePacket`) -/

/-- The fields of an `Event` that `ParsePacket` populates. -/
structure PacketEvent where
  kind : GoStr
  verb : GoStr
  name : GoStr
  nick : GoStr
  user : GoStr
  host : GoStr
  args : List GoStr
  text : GoStr
  tags : List (GoStr × GoStr)
deriving Repr, DecidableEq

/-- Result of running `ParsePacket`: a Go panic, an error return, or an
event. -/
inductive ParseResult where
  | panicked
  | failed (msg : String)
  | ok (ev : PacketEvent)
deriving Repr, DecidableEq

/-- The tag-value unescaping replacer
`strings.NewReplacer("\\\\", "\\", "\\:", ";", "\\s", " ", "\\r", "\r", "\\n", "\n")`:
a single left-to-right pass over non-overlapping two-byte patterns. -/
def unescapeTags : GoStr → GoStr
  | [] => []
  | '\\' :: c :: rest =>
    if c = '\\' then '\\' :: unescapeTags rest
    else if c = ':' then ';' :: unescapeTags rest
    else if c = 's' then ' ' :: unescapeTags rest
    else if c = 'r' then '\r' :: unescapeTags rest
    else if c = 'n' then '\n' :: unescapeTags rest
    else '\\' :: unescapeTags (c :: rest)
  | c :: rest => c :: unescapeTags rest

/-- The tag-block loop of `ParsePacket`: split on `;`, then each token on the
first `=`; a valued token is unescaped, a bare token maps to the empty
string. -/
def parseTagBlock (block : GoStr) : List (GoStr × GoStr) :=
  (splitCh ';' block).foldl
    (fun tags token =>
      match splitN2Ch '=' token with
      | some (k, v) => mapSet tags k (unescapeTags v)
      | none => mapSet tags token [])
    []

/-- Go `strings.Replace(s, string(c), "", n)`: drop the first `n`
occurrences of the byte `c`. -/
def removeN (c : Char) : Nat → GoStr → GoStr
  | _, [] => []
  | 0, s => s
  | n + 1, x :: xs => if x = c then removeN c n xs else x :: removeN c (n + 1) xs

/-- The body/CTCP stage of `ParsePacket`, after tags and the source have
been consumed: split the remainder at the first " :" into head and trailing
text, space-split the head into verb and args, then lift a CTCP payload. -/
def parseBody (tags : List (GoStr × GoStr)) (nick user host rest : GoStr) : ParseResult :=
  let split := splitN2Seq (gs " :") rest
  let headPart := match split with | none => rest | some (l, _) => l
  let text := match split with | none => [] | some (_, r) => r
  let tokens := splitCh ' ' headPart
  let verb := tokens.headD []
  let args := tokens.tail
  if (verb = gs "PRIVMSG" ∨ verb = gs "NOTICE") ∧ text.head? = some '\x01' then
    let inner := removeN '\x01' 2 text
    let kind := if verb = gs "PRIVMSG" then gs "ctcp" else gs "ctcp-reply"
    let cverb := match splitN2Ch ' ' inner with | none => inner | some (v, _) => v
    let ctext := match splitN2Ch ' ' inner with | none => [] | some (_, t) => t
    .ok { kind := kind, verb := cverb, name := kind ++ gs "." ++ toLowerStr cverb
          nick := nick, user := user, host := host, args := args, text := ctext, tags := tags }
  else
    .ok { kind := gs "packet", verb := verb, name := gs "packet." ++ toLowerStr verb
          nick := nick, user := user, host := host, args := args, text := text, tags := tags }

/-- Embedding of `ParsePacket` in `event_packet.go`.  The source checks
`len(line) == 0` once at entry; after consuming a tag block it dereferences
`line[0]` again without a length check, which panics in Go when the line was
a tag block followed by a single space — modelled by `ParseResult.panicked`. -/
def parsePacket (line : GoStr) : ParseResult :=
  if line = [] then .failed "irc: empty line"
  else
    let tagStep : Option (List (GoStr × GoStr) × GoStr) :=
      if line.head? = some '@' then
        match splitN2Ch ' ' line with
        | none => none
        | some (l, r) => some (parseTagBlock (l.drop 1), r)
      else some ([], line)
    match tagStep with
    | none => .failed "irc: incomplete packet"
    | some (tags, line1) =>
      match line1 with
      | [] => .panicked
      | c :: _ =>
        if c = ':' then
          match splitN2Ch ' ' line1 with
          | none => .failed "ParsePacket: incomplete packet"
          | some (l, r) =>
            let preTokens := splitCh '!' (l.drop 1)
            let nick := preTokens.headD []
            if preTokens.length > 1 then
              let userhost := splitCh '@' (preTokens.getD 1 [])
              if userhost.length < 2 then .failed "ParsePacket: invalid user@host format"
              else parseBody tags nick (userhost.getD 0 []) (userhost.getD 1 []) r
            else parseBody tags nick [] [] r
        else parseBody tags [] [] [] line1

/-! ### Nick rotation (`client.go`, `case "packet.431" ... "packet.436"`) -/

/-- The configuration fields the nick-rotation handler reads. -/
structure NickConfig where
  nick : String
  alternatives : List String
deriving Repr, DecidableEq

/-- Decimal digit expansion, most significant digit first (the decimal
conversion behind `fmt`'s `%d`). -/
def decRepr (n : Nat) : List Char :=
  if _h : n < 10 then [Nat.digitChar n]
  else decRepr (n / 10) ++ [Nat.digitChar (n % 10)]
decreasing_by exact Nat.div_lt_self (by omega) (by omega)

/-- Go `fmt.Sprintf("%05d", n)`: decimal digits left-padded with zeros to
width five. -/
def fmt05 (n : Nat) : String := ⟨List.replicate (5 - (decRepr n).length) '0' ++ decRepr n⟩

/-- The `"AltN" -> "AltN+1"` walk in the nick-rejection arm: scan the
alternatives with the configured nick as the initial predecessor and return
the entry following the rejected nick, or the empty string when the walk
falls off the end. -/
def nextAltNick (rejected : String) : String → List String → String
  | _, [] => ""
  | prev, alt :: rest => if rejected = prev then alt else nextAltNick rejected alt rest

/-- What the nick-rejection arm does once it has decided on a new nick. -/
inductive NickAction where
  | noop
  | send (line : String)
  | primed (nick : String)
deriving Repr, DecidableEq

/-- Embedding of the `case "packet.431", "packet.432", "packet.433",
"packet.436"` arm of `handleEvent`.  `currentNick` is `client.Nick()`,
`lockNickChange` the ad-hoc value read at the top of the arm, `args` the
event arguments, and `randN` the value `mathRand.Int31n(99999)` would
return.  `none` models the Go panic when `event.Args[1]` is missing. -/
def handleNickRejected (cfg : NickConfig) (currentNick : String) (lockNickChange : Bool)
    (args : List String) (randN : Nat) : Option NickAction :=
  if currentNick ≠ "" then some .noop
  else
    match args.get? 1 with
    | none => none
    | some rejected =>
      let newNick := nextAltNick rejected cfg.nick cfg.alternatives
      let newNick := if newNick = "" then cfg.nick ++ fmt05 randN else newNick
      some (if lockNickChange then .primed newNick else .send ("NICK " ++ newNick))

/-! ### ISUPPORT registry feeding (`client.go` `case "packet.005"`,
`isupport/isupport.go` `Set`) -/

/-- Mirror of the `Prefixes[rune(split[1][i])] = ch` loop in
`ISupport.Set`: pair each mode with the prefix at the same byte index. -/
def buildPrefixMap (modes prefixes : GoStr) : List (Char × Char) :=
  (modes.zip prefixes).foldl (fun m p => mapSet m p.2 p.1) []

/-- Embedding of `ISupport.Set(key, value)`: uppercase the key, store the
raw pair, and decode `PREFIX` and `CHANMODES`.  `none` models the Go panics
on a malformed `PREFIX` value (`value[1:]` on an empty value, `split[1]`
when there is no `)`, and `split[1][i]` when the prefixes run short). -/
def isupportSet (su : SupportState) (key value : GoStr) : Option SupportState :=
  let key := toUpperStr key
  let su := { su with rawPairs := mapSet su.rawPairs key value }
  if key = gs "PREFIX" then
    match value with
    | [] => none
    | _ :: vrest =>
      match splitN2Ch ')' vrest with
      | none => none
      | some (modes, prefixes) =>
        if prefixes.length < modes.length then none
        else some { su with prefixOrder := prefixes, modeOrder := modes
                            prefixToMode := buildPrefixMap modes prefixes }
  else if key = gs "CHANMODES" then
    some { su with channelModes := splitCh ',' value }
  else some su

/-- The key/value extraction the `case "packet.005"` arm performs on one
token: `strings.Split(token, "=")` (a full split), a pair when that yields
exactly two parts and the bare key otherwise. -/
def pair005 (token : GoStr) : GoStr × GoStr :=
  let kv := splitCh '=' token
  if kv.length = 2 then (kv.headD [], kv.getD 1 []) else (kv.headD [], [])

/-- Embedding of the `case "packet.005"` arm: feed every argument after the
first through `pair005` into the registry. -/
def handle005 (args : List GoStr) (su : SupportState) : Option SupportState :=
  match args with
  | [] => none
  | _ :: rest => rest.foldlM (fun su t => isupportSet su (pair005 t).1 (pair005 t).2) su

/-! ### The message cutter (`ircutil`, `CutMessage` / `CutMessageNoSpace`)

`CutMessage` byte-splits the text on single spaces and greedily packs the
tokens; space splitting on valid UTF-8 coincides with `splitCh ' '` because
the space byte never occurs inside a multi-byte sequence.  The cut length
comparisons use Go `int` arithmetic, modelled with `Int`. -/

/-- The greedy packing loop of `CutMessage`: per token, flush `current` when
it plus a separating space plus the token would exceed the cut length, then
append a space (only to a non-empty `current`) and the token. -/
def cutLoop (cl : Int) : List GoStr → List GoStr → GoStr → List GoStr
  | [], res, cur => res ++ [cur]
  | t :: ts, res, cur =>
    if (byteLen cur : Int) + 1 + (byteLen t : Int) > cl then
      cutLoop cl ts (res ++ [cur]) t
    else if cur.length > 0 then
      cutLoop cl ts res (cur ++ (' ' :: t))
    else
      cutLoop cl ts res (cur ++ t)

/-- The rune loop of `CutMessageNoSpace`: flush `current` when the next
codepoint would push it over the cut length. -/
def noSpaceLoop (cl : Int) : GoStr → List GoStr → GoStr → List GoStr
  | [], res, cur => res ++ [cur]
  | r :: rest, res, cur =>
    if (byteLen cur : Int) + (r.utf8Size : Int) > cl then
      noSpaceLoop cl rest (res ++ [cur]) [r]
    else
      noSpaceLoop cl rest res (cur ++ [r])

/-- Embedding of `CutMessageNoSpace(text, overhead)`. -/
def cutMessageNoSpace (text : GoStr) (overhead : Int) : List GoStr :=
  noSpaceLoop (510 - overhead) text [] []

/-- Embedding of `CutMessage(text, overhead)`: fall back to the rune cutter
when some space-delimited token alone reaches the cut length
`510 - overhead`. -/
def cutMessage (text : GoStr) (overhead : Int) : List GoStr :=
  if (splitCh ' ' text).any (fun t => decide ((byteLen t : Int) ≥ 510 - overhead)) then
    cutMessageNoSpace text overhead
  else
    cutLoop (510 - overhead) (splitCh ' ' text) [] []

/-- Join pieces with a one-byte separator (the inverse of `splitCh`). -/
def joinCh (c : Char) : List GoStr → GoStr
  | [] => []
  | p :: ps => p ++ (ps.map (fun q => c :: q)).flatten

/-! ### The channel userlist (`list/list.go`, `list/user.go`)

Go keeps `*User` pointers shared between the ordered `users` slice and the
`index` map.  The embedding uses an arena: `arena` is the append-only pool
of all `User` records ever allocated, a pointer is an index into it, `users`
is the ordered member list of pointers and `index` maps a lowercased nick
key to a pointer.  Mutating a user through either view writes the arena
slot, exactly like mutating the shared Go record. -/

/-- The `list.User` record. -/
structure ChanUser where
  nick : GoStr
  user : GoStr
  host : GoStr
  account : GoStr
  modes : GoStr
  prefixes : GoStr
  prefixedNick : GoStr
deriving Repr, DecidableEq

/-- The zero value of `list.User`. -/
def zeroUser : ChanUser := ⟨[], [], [], [], [], [], []⟩

/-- `User.HighestMode`: the first byte of the modes, or the zero rune. -/
def highestMode (u : ChanUser) : Char :=
  match u.modes with
  | [] => runeZero
  | c :: _ => c

/-- `User.updatePrefixedNick`: highest prefix byte plus nick, or the bare
nick. -/
def refreshPrefixedNick (u : ChanUser) : ChanUser :=
  match u.prefixes with
  | [] => { u with prefixedNick := u.nick }
  | c :: _ => { u with prefixedNick := c :: u.nick }

/-- `ISupport.SortModes`: project onto `modeOrder`, dropping unknowns. -/
def sortModes (su : SupportState) (modes : GoStr) : GoStr :=
  (su.modeOrder.map (fun ch => modes.filter (fun c2 => c2 = ch))).flatten

/-- `ISupport.SortPrefixes`: project onto `prefixOrder`, dropping unknowns. -/
def sortPrefixes (su : SupportState) (prefixes : GoStr) : GoStr :=
  (su.prefixOrder.map (fun ch => prefixes.filter (fun c2 => c2 = ch))).flatten

/-- `ISupport.IsPermissionMode`. -/
def isPermissionMode (su : SupportState) (c : Char) : Bool :=
  containsCh su.modeOrder c

/-- `ISupport.Prefix(mode)`: scan the map for the mode, zero rune when
absent.  Go map iteration order is unspecified; `PREFIX`-built maps are
injective, so the first match is the only one. -/
def prefixOfMode (su : SupportState) (mode : Char) : Char :=
  ((su.prefixToMode.find? (fun pm => pm.2 = mode)).map (fun pm => pm.1)).getD runeZero

/-- `ISupport.Prefixes(modes)`: per mode, append `Prefix(mode)` when it
differs from the mode itself (the source's own condition). -/
def prefixesOf (su : SupportState) (modes : GoStr) : GoStr :=
  modes.foldl
    (fun acc mode =>
      let pr := prefixOfMode su mode
      if pr ≠ mode then acc ++ [pr] else acc)
    []

/-- The scan inside `ISupport.IsModeHigher`: first hit in `modeOrder`
decides. -/
def scanHigher (cur oth : Char) : GoStr → Bool
  | [] => false
  | m :: rest => if m = cur then true else if m = oth then false else scanHigher cur oth rest

/-- `ISupport.IsModeHigher`. -/
def isModeHigher (su : SupportState) (cur oth : Char) : Bool :=
  if cur = oth then false
  else if cur = runeZero then false
  else if oth = runeZero then true
  else scanHigher cur oth su.modeOrder

/-- The userlist state (see the arena note above). -/
structure Userlist where
  arena : List ChanUser
  users : List Nat
  index : List (GoStr × Nat)
  autosort : Bool
deriving Repr, DecidableEq

/-- `list.New`: empty list with autosort enabled. -/
def Userlist.new : Userlist := ⟨[], [], [], true⟩

/-- Dereference a user pointer. -/
def resolveU (s : Userlist) (p : Nat) : ChanUser := s.arena.getD p zeroUser

/-- The comparison closure passed to `sort.Slice` in `List.sort`. -/
def lessU (su : SupportState) (arena : List ChanUser) (p q : Nat) : Bool :=
  let a := arena.getD p zeroUser
  let b := arena.getD q zeroUser
  if highestMode a ≠ highestMode b then isModeHigher su (highestMode a) (highestMode b)
  else strLtB (toLowerStr a.nick) (toLowerStr b.nick)

/-- Non-strict pointer order derived from `lessU`; `sort.Slice` guarantees
its result is `Pairwise` in this relation. -/
def leU (su : SupportState) (arena : List ChanUser) (p q : Nat) : Prop :=
  lessU su arena q p = false

instance (su : SupportState) (arena : List ChanUser) : DecidableRel (leU su arena) :=
  fun _ _ => instDecidableEqBool _ _

/-- `List.sort`: sort the member pointers by the comparator.  Go uses an
unstable in-place sort; on every reachable state the comparator keys are
pairwise distinct (lowercased nicks are unique), so the sorted permutation
is unique and insertion sort computes the same list. -/
def sortUsers (su : SupportState) (s : Userlist) : Userlist :=
  { s with users := List.insertionSort (leU su s.arena) s.users }

/-- The normalization at the top of `List.Insert`: sort modes, rebuild or
sort prefixes (Go compares byte lengths; modes and prefixes are ASCII), and
refresh the prefixed nick. -/
def normalizeUser (su : SupportState) (u : ChanUser) : ChanUser :=
  if u.modes ≠ [] then
    let modes := sortModes su u.modes
    let prefixes :=
      if u.prefixes.length < modes.length then prefixesOf su modes
      else sortPrefixes su u.prefixes
    refreshPrefixedNick { u with modes := modes, prefixes := prefixes }
  else
    refreshPrefixedNick { u with prefixes := [] }

/-- `List.Insert`. -/
def insertUser (su : SupportState) (s : Userlist) (u0 : ChanUser) : Userlist × Bool :=
  let u := normalizeUser su u0
  let key := toLowerStr u.nick
  if (mapGet s.index key).isSome then (s, false)
  else
    let ptr := s.arena.length
    let s' : Userlist :=
      { s with arena := s.arena ++ [u], users := s.users ++ [ptr]
               index := mapSet s.index key ptr }
    (if s'.autosort then sortUsers su s' else s', true)

/-- The NAMES-token parse in `List.InsertFromNamesToken`: consume known
prefixes (when the loop breaks at position `i > 0` the token is sliced
there; when it never breaks the token is left whole), then split the rest
as `nick[!user@host]`. -/
def parseNamesToken (su : SupportState) (tok : GoStr) : ChanUser :=
  let pre := tok.takeWhile (fun ch => su.modeOf ch ≠ runeZero)
  let rest := if pre.length = tok.length then tok else tok.drop pre.length
  let u : ChanUser := { zeroUser with prefixes := pre, modes := pre.map su.modeOf }
  let split := splitCh '!' rest
  let u := { u with nick := split.headD [] }
  if split.length = 2 then
    let userhost := splitCh '@' (split.getD 1 [])
    if userhost.length = 2 then
      { u with user := userhost.headD [], host := userhost.getD 1 [] }
    else u
  else u

/-- `List.InsertFromNamesToken`. -/
def insertNamesOp (su : SupportState) (s : Userlist) (tok : GoStr) : Userlist × Bool :=
  insertUser su s (parseNamesToken su tok)

/-- `List.AddMode`. -/
def addModeOp (su : SupportState) (s : Userlist) (nick : GoStr) (mode : Char) :
    Userlist × Bool :=
  if ¬ isPermissionMode su mode then (s, false)
  else
    match mapGet s.index (toLowerStr nick) with
    | none => (s, false)
    | some p =>
      let u := resolveU s p
      if containsCh u.modes mode then (s, true)
      else
        let newModes := sortModes su (u.modes ++ [mode])
        let u' := refreshPrefixedNick { u with modes := newModes, prefixes := prefixesOf su newModes }
        let s' : Userlist := { s with arena := s.arena.set p u' }
        (if s'.autosort = true ∧ highestMode u ≠ highestMode u' then sortUsers su s' else s', true)

/-- `List.RemoveMode`: `strings.Replace(·, ·, "", 1)` removes the first
occurrence. -/
def removeModeOp (su : SupportState) (s : Userlist) (nick : GoStr) (mode : Char) :
    Userlist × Bool :=
  if ¬ isPermissionMode su mode then (s, false)
  else
    match mapGet s.index (toLowerStr nick) with
    | none => (s, false)
    | some p =>
      let u := resolveU s p
      if ¬ containsCh u.modes mode then (s, true)
      else
        let u' := refreshPrefixedNick
          { u with modes := u.modes.erase mode, prefixes := u.prefixes.erase (prefixOfMode su mode) }
        let s' : Userlist := { s with arena := s.arena.set p u' }
        (if s'.autosort = true ∧ highestMode u ≠ highestMode u' then sortUsers su s' else s', true)

/-- `List.Rename`. -/
def renameOp (su : SupportState) (s : Userlist) (fromNick toNick : GoStr) : Userlist × Bool :=
  let fromKey := toLowerStr fromNick
  let toKey := toLowerStr toNick
  match mapGet s.index fromKey with
  | none => (s, false)
  | some p =>
    if fromNick = toNick then (s, true)
    else if (mapGet s.index toKey).isSome then (s, false)
    else
      let u' := refreshPrefixedNick { resolveU s p with nick := toNick }
      let s' : Userlist :=
        { s with arena := s.arena.set p u'
                 index := mapSet (mapDel s.index fromKey) toKey p }
      (if s'.autosort then sortUsers su s' else s', true)

/-- `List.Remove`: drop the first member that is pointer-equal to the
indexed user, and its index key. -/
def removeOp (s : Userlist) (nick : GoStr) : Userlist × Bool :=
  match mapGet s.index (toLowerStr nick) with
  | none => (s, false)
  | some p =>
    ({ s with users := s.users.erase p, index := mapDel s.index (toLowerStr nick) }, true)

/-- The `list.UserPatch` record (this revision has no Away field). -/
structure GoUserPatch where
  user : GoStr
  host : GoStr
  account : GoStr
  clearAccount : Bool
deriving Repr, DecidableEq

/-- `List.Patch`: scan `users` in order for the first
`strings.EqualFold(nick, user.Nick)` match (ASCII fold) and set the listed
fields. -/
def patchOp (s : Userlist) (nick : GoStr) (pt : GoUserPatch) : Userlist × Bool :=
  match s.users.find? (fun p => toLowerStr (resolveU s p).nick = toLowerStr nick) with
  | none => (s, false)
  | some p =>
    let u := resolveU s p
    let u := if pt.account ≠ [] ∨ pt.clearAccount then { u with account := pt.account } else u
    let u := if pt.user ≠ [] then { u with user := pt.user } else u
    let u := if pt.host ≠ [] then { u with host := pt.host } else u
    ({ s with arena := s.arena.set p u }, true)

/-- `List.SetAutoSort`: store the flag, then sort unconditionally. -/
def setAutoSortOp (su : SupportState) (s : Userlist) (b : Bool) : Userlist :=
  sortUsers su { s with autosort := b }

/-- One userlist operation, for quantifying over operation sequences. -/
inductive ListOp where
  | insert (u : ChanUser)
  | insertNames (tok : GoStr)
  | addMode (nick : GoStr) (mode : Char)
  | removeMode (nick : GoStr) (mode : Char)
  | rename (fromNick toNick : GoStr)
  | remove (nick : GoStr)
  | patch (nick : GoStr) (pt : GoUserPatch)
  | setAutoSort (b : Bool)
deriving Repr, DecidableEq

/-- Apply one operation (the returned success flag is dropped). -/
def applyOp (su : SupportState) (s : Userlist) : ListOp → Userlist
  | .insert u => (insertUser su s u).1
  | .insertNames tok => (insertNamesOp su s tok).1
  | .addMode n m => (addModeOp su s n m).1
  | .removeMode n m => (removeModeOp su s n m).1
  | .rename f t => (renameOp su s f t).1
  | .remove n => (removeOp s n).1
  | .patch n pt => (patchOp s n pt).1
  | .setAutoSort b => (setAutoSortOp su s b)

/-- Run a sequence of operations from the fresh list. -/
def runOps (su : SupportState) (ops : List ListOp) : Userlist :=
  ops.foldl (applyOp su) Userlist.new

/-! #### The claim-facing sort key and invariants -/

/-- The rank of a highest mode: its first position in `modeOrder`, with the
zero rune (no mode) after everything. -/
def sortRank (su : SupportState) (c : Char) : Nat :=
  if c = runeZero then su.modeOrder.length + 1 else su.modeOrder.indexOf c

/-- The sort key of a user: (highest-mode rank, case-folded nick). -/
def keyOfUser (su : SupportState) (u : ChanUser) : Nat × GoStr :=
  (sortRank su (highestMode u), toLowerStr u.nick)

/-- Strict lexicographic order on sort keys. -/
def keyLt (a b : Nat × GoStr) : Prop :=
  a.1 < b.1 ∨ (a.1 = b.1 ∧ strLtB a.2 b.2 = true)

instance : DecidableRel keyLt := fun _ _ => by
  unfold keyLt; infer_instance

/-- Non-strict lexicographic order on sort keys. -/
def keyLe (a b : Nat × GoStr) : Prop := ¬ keyLt b a

/-- Non-strict order on users by sort key. -/
def userKeyLe (su : SupportState) (a b : ChanUser) : Prop :=
  keyLe (keyOfUser su a) (keyOfUser su b)

instance (su : SupportState) : DecidableRel (userKeyLe su) := fun _ _ => by
  unfold userKeyLe keyLe; infer_instance

/-- The sortedness the specification claims: members ascend by
(highest-mode rank, case-folded nick). -/
def sortedByRankNick (su : SupportState) (s : Userlist) : Prop :=
  (s.users.map (resolveU s)).Pairwise (userKeyLe su)

instance (su : SupportState) (s : Userlist) : Decidable (sortedByRankNick su s) := by
  unfold sortedByRankNick; infer_instance

/-- The prefixed nick the specification claims: `prefixes[0] + nick` when
prefixes are non-empty, else the nick. -/
def specPrefixedNick (u : ChanUser) : GoStr :=
  match u.prefixes with
  | [] => u.nick
  | c :: _ => c :: u.nick

end IrcProof

namespace IrcProof

/-! ## Claims C2, C3, C4 -/

/-- C1: `ParsePacket` is not total.  It does return errors exactly on the
listed conditions for the lines shown, but on the line consisting of a tag
block, one space and nothing else — which the claim singles out as returning
an Event — the source dereferences `line[0]` on an empty string and panics. -/
theorem parsePacket_panics_on_tag_block_with_trailing_space :
    parsePacket (gs "@a ") = ParseResult.panicked
    ∧ parsePacket (gs "") = ParseResult.failed "irc: empty line"
    ∧ parsePacket (gs "@tag=1") = ParseResult.failed "irc: incomplete packet"
    ∧ parsePacket (gs ":nick!user") = ParseResult.failed "ParsePacket: incomplete packet"
    ∧ parsePacket (gs ":nick!userhost PRIVMSG #c :hi")
        = ParseResult.failed "ParsePacket: invalid user@host format" := by
  refine ⟨rfl, rfl, rfl, rfl, rfl⟩

/-- C2: the dispatcher's 30-second ticker injects an event named
`client.tick`, not `hook.tick` as the claim states, and `handleEvent`'s
keepalive arm fires only for the name `hook.tick`: at 150 elapsed seconds
the injected ticker event sends no `PING` while a `hook.tick` event would.
The second part of the claim (`PING` iff more than 120 seconds passed) holds
of the `hook.tick` arm itself, shown at 120 and 121 seconds. -/
theorem ticker_event_is_client_tick_not_hook_tick :
    tickerEventName = "client.tick"
    ∧ tickerEventName ≠ "hook.tick"
    ∧ handleEventSendsKeepalivePing tickerEventName (150 * nsPerSecond) = false
    ∧ handleEventSendsKeepalivePing "hook.tick" (150 * nsPerSecond) = true
    ∧ handleEventSendsKeepalivePing "hook.tick" (120 * nsPerSecond) = false
    ∧ handleEventSendsKeepalivePing "hook.tick" (121 * nsPerSecond) = true := by
  refine ⟨rfl, by decide, by decide, by decide, by decide, by decide⟩

/-- C3: on the repository's own test data (`CHANMODES=eIbq,k,flj,...`,
`PREFIX=(ov)@+`), the mode `f` sits in category C, yet
`ModeTakesArgument('f', true)` returns `false`: the source tests
`ChannelModes[1]` (category B) where its comment describes category C, so
category C modes never take an argument.  Groups A, B, D and permission
modes behave as claimed. -/
theorem modeTakesArgument_category_c_broken :
    (testSupport.channelModes.get? 2 = some (gs "flj")
      ∧ containsCh (gs "flj") 'f' = true)
    ∧ modeTakesArgument testSupport 'f' true = some false
    ∧ modeTakesArgument testSupport 'l' true = some false
    ∧ modeTakesArgument testSupport 'e' false = some true
    ∧ modeTakesArgument testSupport 'k' true = some true
    ∧ modeTakesArgument testSupport 'm' true = some false
    ∧ modeTakesArgument testSupport 'o' false = some true := by
  exact ⟨⟨rfl, by decide⟩, by decide, by decide, by decide, by decide, by decide, by decide⟩

/-- C4: handling `packet.nick` for our own nick stores the new nick in the
ad-hoc `values` map under the key `nick` (which nothing reads) instead of
updating the `nick` field, so `Client.Nick()` still returns the old nick
afterwards, contradicting the claim. -/
theorem handlePacketNick_does_not_update_nick :
    clientNick (handlePacketNick ⟨"Test", []⟩ "Test" "Test2") = "Test"
    ∧ clientNick (handlePacketNick ⟨"Test", []⟩ "Test" "Test2") ≠ "Test2"
    ∧ mapGet (handlePacketNick ⟨"Test", []⟩ "Test" "Test2").values (gs "nick")
        = some "Test2" := by
  refine ⟨rfl, by decide, by decide⟩

/-! ## Claim C7: nick rotation -/

/-- The configuration of the repository's own registration test. -/
def testNickConfig : NickConfig := ⟨"Test", ["Test2", "Test3", "Test4", "Test768"]⟩

theorem decRepr_length_le (k : Nat) : ∀ n, 1 ≤ k → n < 10 ^ k → (decRepr n).length ≤ k := by
  induction k with
  | zero => intro n h; omega
  | succ k ih =>
      intro n _ hn
      rw [decRepr]
      by_cases h10 : n < 10
      · simp only [h10, dite_true, List.length_singleton]
        omega
      · simp only [h10, dite_false, List.length_append, List.length_cons, List.length_nil]
        have hk : 1 ≤ k := by
          by_contra hk0
          have : k = 0 := by omega
          subst this
          simp [pow_succ] at hn
          omega
        have hdiv : n / 10 < 10 ^ k := by
          apply Nat.div_lt_of_lt_mul
          calc n < 10 ^ (k + 1) := hn
            _ = 10 * 10 ^ k := by ring
        have := ih (n / 10) hk hdiv
        omega

theorem decRepr_length_pos (n : Nat) : 1 ≤ (decRepr n).length := by
  rw [decRepr]
  by_cases h10 : n < 10 <;> simp [h10]

theorem decRepr_digits (n : Nat) : ∀ c ∈ decRepr n, c.isDigit = true := by
  induction n using Nat.strong_induction_on with
  | _ n ih =>
      rw [decRepr]
      have hdig : ∀ d < 10, (Nat.digitChar d).isDigit = true := by decide
      by_cases h10 : n < 10
      · simp only [h10, dite_true, List.mem_singleton]
        rintro c rfl
        exact hdig n h10
      · simp only [h10, dite_false, List.mem_append, List.mem_singleton]
        rintro c (hc | rfl)
        · exact ih (n / 10) (Nat.div_lt_self (by omega) (by omega)) c hc
        · exact hdig (n % 10) (Nat.mod_lt n (by omega))

theorem fmt05_length (n : Nat) (h : n < 100000) : (fmt05 n).length = 5 := by
  have h1 := decRepr_length_le 5 n (by omega) (by norm_num; omega)
  have h2 := decRepr_length_pos n
  simp only [fmt05, String.length, List.length_append, List.length_replicate]
  omega

theorem fmt05_digits (n : Nat) : ∀ c ∈ (fmt05 n).data, c.isDigit = true := by
  intro c hc
  simp only [fmt05, List.mem_append, List.mem_replicate] at hc
  rcases hc with ⟨-, rfl⟩ | hc
  · decide
  · exact decRepr_digits n c hc

/-- C7: with the configured nick `Test` and alternatives
`[Test2, Test3, Test4, Test768]`, while no nick is acquired, the rejection
numerics walk the alternatives in order, and a rejection of the last
alternative falls back to the configured nick suffixed with the five-digit
zero-padded random number. -/
theorem nick_rotation_walks_alternatives (n : Nat) (h : n < 99999) :
    handleNickRejected testNickConfig "" false ["*", "Test"] n = some (.send "NICK Test2")
    ∧ handleNickRejected testNickConfig "" false ["*", "Test2"] n = some (.send "NICK Test3")
    ∧ handleNickRejected testNickConfig "" false ["*", "Test3"] n = some (.send "NICK Test4")
    ∧ handleNickRejected testNickConfig "" false ["*", "Test4"] n = some (.send "NICK Test768")
    ∧ handleNickRejected testNickConfig "" false ["*", "Test768"] n
        = some (.send ("NICK " ++ (testNickConfig.nick ++ fmt05 n)))
    ∧ (fmt05 n).length = 5
    ∧ ∀ c ∈ (fmt05 n).data, c.isDigit = true := by
  refine ⟨rfl, rfl, rfl, rfl, rfl, fmt05_length n (by omega), fmt05_digits n⟩

/-- Witness for C7 at the random draw 768. -/
theorem nick_rotation_walks_alternatives_witness :
    handleNickRejected testNickConfig "" false ["*", "Test768"] 768
        = some (.send ("NICK " ++ (testNickConfig.nick ++ fmt05 768)))
    ∧ (fmt05 768).length = 5 := by
  have h := nick_rotation_walks_alternatives 768 (by decide)
  exact ⟨h.2.2.2.2.1, h.2.2.2.2.2.1⟩

/-! ## Claim C8: ISUPPORT token splitting in the `packet.005` arm -/

theorem splitCh_ne_nil (c : Char) : ∀ s : GoStr, splitCh c s ≠ [] := by
  intro s
  cases s with
  | nil => simp [splitCh]
  | cons x xs =>
      simp only [splitCh]
      cases splitCh c xs with
      | nil => simp
      | cons r rs => by_cases hx : x = c <;> simp [hx]

theorem splitN2Ch_none_splitCh (c : Char) :
    ∀ s : GoStr, splitN2Ch c s = none → splitCh c s = [s] := by
  intro s
  induction s with
  | nil => intro _; rfl
  | cons x xs ih =>
      intro h
      simp only [splitN2Ch] at h
      by_cases hx : x = c
      · simp [hx] at h
      · simp only [hx, if_false] at h
        cases h2 : splitN2Ch c xs with
        | none =>
            simp only [splitCh, ih h2]
            simp [hx]
        | some kr => rw [h2] at h; simp at h

theorem splitN2Ch_some_splitCh (c : Char) :
    ∀ (s k rest : GoStr), splitN2Ch c s = some (k, rest) →
      splitCh c s = k :: splitCh c rest := by
  intro s
  induction s with
  | nil => intro k rest h; simp [splitN2Ch] at h
  | cons x xs ih =>
      intro k rest h
      simp only [splitN2Ch] at h
      by_cases hx : x = c
      · simp only [hx, if_true, Option.some.injEq, Prod.mk.injEq] at h
        obtain ⟨rfl, rfl⟩ := h
        simp only [splitCh, hx]
        cases hsc : splitCh c xs with
        | nil => exact absurd hsc (splitCh_ne_nil c xs)
        | cons r rs => simp
      · simp only [hx, if_false] at h
        cases h2 : splitN2Ch c xs with
        | none => rw [h2] at h; simp at h
        | some lr =>
            obtain ⟨l, r⟩ := lr
            rw [h2] at h
            simp only [Option.some.injEq, Prod.mk.injEq] at h
            obtain ⟨rfl, rfl⟩ := h
            have ihx := ih l r h2
            simp only [splitCh, ihx]
            simp [hx]

theorem contains_iff_splitN2Ch (c : Char) :
    ∀ s : GoStr, containsCh s c = (splitN2Ch c s).isSome := by
  intro s
  induction s with
  | nil => rfl
  | cons x xs ih =>
      simp only [containsCh, List.contains_cons, splitN2Ch]
      by_cases hx : x = c
      · simp [hx]
      · have hcx : (c == x) = false := by
          simp only [beq_eq_false_iff_ne, ne_eq]
          exact fun h => hx h.symm
        rw [hcx]
        simp only [Bool.false_or]
        rw [containsCh] at ih
        rw [ih]
        cases splitN2Ch c xs with
        | none => simp [hx]
        | some kr => simp [hx]

/-- C8 (amended): the `packet.005` arm stores, for a token, the part before
the first `=` as key, and as value the part after the first `=` only when
the remainder contains no further `=`; a token with no `=` or with a second
`=` is stored with an empty value. -/
theorem pair005_uses_full_split (t : GoStr) :
    pair005 t = match splitN2Ch '=' t with
      | none => (t, [])
      | some (k, rest) => (k, if containsCh rest '=' then [] else rest) := by
  cases h : splitN2Ch '=' t with
  | none =>
      simp only [pair005, splitN2Ch_none_splitCh '=' t h]
      rfl
  | some kr =>
      obtain ⟨k, rest⟩ := kr
      have hsp := splitN2Ch_some_splitCh '=' t k rest h
      by_cases hc : containsCh rest '='
      · rw [contains_iff_splitN2Ch] at hc
        cases h2 : splitN2Ch '=' rest with
        | none => rw [h2] at hc; simp at hc
        | some kr2 =>
            obtain ⟨k2, rest2⟩ := kr2
            have hsp2 := splitN2Ch_some_splitCh '=' rest k2 rest2 h2
            have hcontains : containsCh rest '=' = true := by
              rw [contains_iff_splitN2Ch '=' rest, h2]; rfl
            have hlen : (k :: k2 :: splitCh '=' rest2).length ≠ 2 := by
              cases hsc : splitCh '=' rest2 with
              | nil => exact absurd hsc (splitCh_ne_nil '=' rest2)
              | cons a as => simp [hsc]
            simp only [pair005, hsp, hsp2, hlen, if_false, hcontains, if_true]
            rfl
      · rw [contains_iff_splitN2Ch] at hc
        cases h2 : splitN2Ch '=' rest with
        | some kr2 => rw [h2] at hc; simp at hc
        | none =>
            have : splitCh '=' rest = [rest] := splitN2Ch_none_splitCh '=' rest h2
            simp only [pair005, hsp, this]
            simp [contains_iff_splitN2Ch '=' rest, h2]

/-- C8 counterexample: the token `KEY=a=b` splits into three parts, so the
registry receives the pair `(KEY, "")`, not `(KEY, "a=b")` as the claim
states. -/
theorem handle005_drops_value_with_second_eq :
    (handle005 [gs "srv", gs "KEY=a=b"] SupportState.empty).map
        (fun su => mapGet su.rawPairs (gs "KEY")) = some (some (gs ""))
    ∧ gs "" ≠ gs "a=b" := by
  refine ⟨rfl, by decide⟩

/-! ## Claim C5: the message cutter -/

theorem byteLen_append (x y : GoStr) : byteLen (x ++ y) = byteLen x + byteLen y := by
  simp [byteLen]

theorem byteLen_cons (c : Char) (x : GoStr) : byteLen (c :: x) = c.utf8Size + byteLen x := by
  simp [byteLen]

theorem joinCh_append_singleton (c : Char) (xs : List GoStr) (t : GoStr) (h : xs ≠ []) :
    joinCh c (xs ++ [t]) = joinCh c xs ++ (c :: t) := by
  cases xs with
  | nil => exact absurd rfl h
  | cons p ps => simp [joinCh, List.map_append, List.flatten_append]

theorem joinCh_append_merge (c : Char) (xs : List GoStr) (a b : GoStr) :
    joinCh c (xs ++ [a ++ b]) = joinCh c (xs ++ [a]) ++ b := by
  cases xs with
  | nil => simp [joinCh]
  | cons p ps => simp [joinCh, List.map_append, List.flatten_append]

theorem joinCh_splitCh (c : Char) : ∀ s : GoStr, joinCh c (splitCh c s) = s := by
  intro s
  induction s with
  | nil => rfl
  | cons x xs ih =>
      rw [splitCh]
      cases hsc : splitCh c xs with
      | nil => exact absurd hsc (splitCh_ne_nil c xs)
      | cons r rs =>
          rw [hsc] at ih
          simp only [joinCh] at ih
          show joinCh c (if x = c then [] :: r :: rs else (x :: r) :: rs) = x :: xs
          by_cases hx : x = c
          · rw [if_pos hx, hx]
            simp only [joinCh, List.map_cons, List.flatten_cons, List.nil_append]
            rw [List.cons_append, ih]
          · rw [if_neg hx]
            simp only [joinCh]
            rw [List.cons_append, ih]

theorem cutLoop_bound (cl : Int) :
    ∀ (ts res : List GoStr) (cur : GoStr),
      (∀ t ∈ ts, (byteLen t : Int) < cl) → (∀ p ∈ res, (byteLen p : Int) ≤ cl) →
      (byteLen cur : Int) ≤ cl →
      ∀ p ∈ cutLoop cl ts res cur, (byteLen p : Int) ≤ cl := by
  intro ts
  induction ts with
  | nil =>
      intro res cur _ hres hcur p hp
      simp only [cutLoop, List.mem_append, List.mem_singleton] at hp
      rcases hp with h | rfl
      · exact hres p h
      · exact hcur
  | cons t ts ih =>
      intro res cur hts hres hcur p hp
      have htlt : (byteLen t : Int) < cl := hts t (List.mem_cons_self t ts)
      have hts' : ∀ u ∈ ts, (byteLen u : Int) < cl := fun u hu => hts u (List.mem_cons_of_mem t hu)
      by_cases hf : (byteLen cur : Int) + 1 + (byteLen t : Int) > cl
      · rw [cutLoop, if_pos hf] at hp
        refine ih (res ++ [cur]) t hts' ?_ (le_of_lt htlt) p hp
        intro q hq
        rcases List.mem_append.mp hq with h | h
        · exact hres q h
        · simp only [List.mem_singleton] at h; subst h; exact hcur
      · by_cases hl : cur.length > 0
        · rw [cutLoop, if_neg hf, if_pos hl] at hp
          refine ih res (cur ++ (' ' :: t)) hts' hres ?_ p hp
          rw [byteLen_append, byteLen_cons]
          push_cast
          have : Char.utf8Size ' ' = 1 := rfl
          rw [this]
          omega
        · rw [cutLoop, if_neg hf, if_neg hl] at hp
          refine ih res (cur ++ t) hts' hres ?_ p hp
          rw [byteLen_append]
          push_cast
          omega

theorem cutLoop_join (cl : Int) :
    ∀ (ts res : List GoStr) (cur : GoStr),
      (cur ≠ [] ∨ ts = []) → (∀ t ∈ ts.dropLast, t ≠ []) →
      joinCh ' ' (cutLoop cl ts res cur)
        = joinCh ' ' (res ++ [cur]) ++ (ts.map (fun t => ' ' :: t)).flatten := by
  intro ts
  induction ts with
  | nil =>
      intro res cur _ _
      simp [cutLoop]
  | cons t ts ih =>
      intro res cur hc hne
      have hcur : cur ≠ [] := by
        rcases hc with h | h
        · exact h
        · simp at h
      have hne' : ∀ u ∈ ts.dropLast, u ≠ [] := by
        intro u hu
        apply hne
        cases ts with
        | nil => simp at hu
        | cons a as =>
            rw [List.dropLast_cons_of_ne_nil (by simp : (a :: as) ≠ [])]
            exact List.mem_cons_of_mem t hu
      by_cases hf : (byteLen cur : Int) + 1 + (byteLen t : Int) > cl
      · rw [cutLoop, if_pos hf]
        by_cases ht : t = []
        · subst ht
          have hts : ts = [] := by
            cases ts with
            | nil => rfl
            | cons a as =>
                exfalso
                apply hne []
                rw [List.dropLast_cons_of_ne_nil (by simp : (a :: as) ≠ [])]
                exact List.mem_cons_self [] _
                rfl
          subst hts
          simp only [cutLoop, List.map_cons, List.map_nil, List.flatten_cons, List.flatten_nil]
          rw [joinCh_append_singleton ' ' (res ++ [cur]) [] (by simp)]
          simp
        · rw [ih (res ++ [cur]) t (Or.inl ht) hne']
          rw [joinCh_append_singleton ' ' (res ++ [cur]) t (by simp)]
          simp [List.append_assoc]
      · have hl : cur.length > 0 := List.length_pos.mpr hcur
        rw [cutLoop, if_neg hf, if_pos hl]
        rw [ih res (cur ++ (' ' :: t)) (Or.inl (by simp)) hne']
        rw [joinCh_append_merge ' ' res cur (' ' :: t)]
        simp [List.append_assoc]

theorem noSpaceLoop_bound (cl : Int) (h4 : 4 ≤ cl) :
    ∀ (text : GoStr) (res : List GoStr) (cur : GoStr),
      (∀ p ∈ res, (byteLen p : Int) ≤ cl) → (byteLen cur : Int) ≤ cl →
      ∀ p ∈ noSpaceLoop cl text res cur, (byteLen p : Int) ≤ cl := by
  intro text
  induction text with
  | nil =>
      intro res cur hres hcur p hp
      simp only [noSpaceLoop, List.mem_append, List.mem_singleton] at hp
      rcases hp with h | rfl
      · exact hres p h
      · exact hcur
  | cons r rest ih =>
      intro res cur hres hcur p hp
      by_cases hf : (byteLen cur : Int) + (r.utf8Size : Int) > cl
      · rw [noSpaceLoop, if_pos hf] at hp
        refine ih (res ++ [cur]) [r] ?_ ?_ p hp
        · intro q hq
          rcases List.mem_append.mp hq with h | h
          · exact hres q h
          · simp only [List.mem_singleton] at h; subst h; exact hcur
        · have h4r := Char.utf8Size_le_four r
          have hb : byteLen [r] = r.utf8Size := by simp [byteLen]
          rw [hb]
          omega
      · rw [noSpaceLoop, if_neg hf] at hp
        refine ih res (cur ++ [r]) hres ?_ p hp
        have hb : byteLen (cur ++ [r]) = byteLen cur + r.utf8Size := by
          rw [byteLen_append]
          simp [byteLen]
        rw [hb, Nat.cast_add]
        omega

theorem noSpaceLoop_join (cl : Int) :
    ∀ (text : GoStr) (res : List GoStr) (cur : GoStr),
      (noSpaceLoop cl text res cur).flatten = res.flatten ++ cur ++ text := by
  intro text
  induction text with
  | nil =>
      intro res cur
      simp [noSpaceLoop]
  | cons r rest ih =>
      intro res cur
      by_cases hf : (byteLen cur : Int) + (r.utf8Size : Int) > cl
      · rw [noSpaceLoop, if_pos hf, ih]
        simp [List.append_assoc]
      · rw [noSpaceLoop, if_neg hf, ih]
        simp [List.append_assoc]

/-- C5 (amended): every piece of `CutMessage(text, overhead)` with
`overhead ≤ 506` fits in `510 - overhead` bytes, and pieces are whole
sequences of codepoints.  Joining with the chosen separator reproduces the
text when the rune fallback was taken, and on the space path when the text
has no leading space and no two consecutive spaces (every space-delimited
token except possibly the last is non-empty); texts violating that can lose
spaces (see the counterexample). -/
theorem cutMessage_bound_and_join (text : GoStr) (overhead : Int) (h : overhead ≤ 506) :
    (∀ p ∈ cutMessage text overhead, (byteLen p : Int) ≤ 510 - overhead)
    ∧ ((splitCh ' ' text).any (fun t => decide ((byteLen t : Int) ≥ 510 - overhead)) = true →
        (cutMessage text overhead).flatten = text)
    ∧ ((splitCh ' ' text).any (fun t => decide ((byteLen t : Int) ≥ 510 - overhead)) = false →
        (∀ t ∈ (splitCh ' ' text).dropLast, t ≠ []) →
        joinCh ' ' (cutMessage text overhead) = text) := by
  have h4 : (4 : Int) ≤ 510 - overhead := by omega
  by_cases hany : (splitCh ' ' text).any (fun t => decide ((byteLen t : Int) ≥ 510 - overhead)) = true
  · refine ⟨?_, fun _ => ?_, fun hfalse => absurd hany (by rw [hfalse]; simp)⟩
    · intro p hp
      rw [cutMessage, if_pos hany] at hp
      exact noSpaceLoop_bound (510 - overhead) h4 text [] [] (by simp)
        (by simp [byteLen]; omega) p hp
    · rw [cutMessage, if_pos hany, cutMessageNoSpace, noSpaceLoop_join]
      simp
  · have hany' : (splitCh ' ' text).any (fun t => decide ((byteLen t : Int) ≥ 510 - overhead)) = false :=
      Bool.eq_false_iff.mpr hany
    have hlt : ∀ t ∈ splitCh ' ' text, (byteLen t : Int) < 510 - overhead := by
      intro t ht
      have := List.any_eq_false.mp hany' t ht
      simp only [decide_eq_true_eq] at this
      omega
    refine ⟨?_, fun htrue => absurd htrue hany, fun _ hne => ?_⟩
    · intro p hp
      rw [cutMessage, if_neg hany] at hp
      exact cutLoop_bound (510 - overhead) (splitCh ' ' text) [] [] hlt (by simp)
        (by simp [byteLen]; omega) p hp
    · rw [cutMessage, if_neg hany]
      cases hsc : splitCh ' ' text with
      | nil => exact absurd hsc (splitCh_ne_nil ' ' text)
      | cons t ts =>
          have hflt : (byteLen t : Int) < 510 - overhead := by
            apply hlt; rw [hsc]; exact List.mem_cons_self t ts
          have hstep : cutLoop (510 - overhead) (t :: ts) [] []
              = cutLoop (510 - overhead) ts [] t := by
            have hb0 : byteLen ([] : GoStr) = 0 := rfl
            rw [cutLoop, if_neg (by rw [hb0]; push_cast; omega), if_neg (by simp)]
            simp
          rw [hstep]
          have hc : t ≠ [] ∨ ts = [] := by
            cases ts with
            | nil => exact Or.inr rfl
            | cons a as =>
                left
                apply hne
                rw [hsc, List.dropLast_cons_of_ne_nil (by simp : (a :: as) ≠ [])]
                exact List.mem_cons_self t _
          have hne' : ∀ u ∈ ts.dropLast, u ≠ [] := by
            intro u hu
            apply hne
            rw [hsc]
            cases ts with
            | nil => simp at hu
            | cons a as =>
                rw [List.dropLast_cons_of_ne_nil (by simp : (a :: as) ≠ [])]
                exact List.mem_cons_of_mem t hu
          rw [cutLoop_join (510 - overhead) ts [] t hc hne']
          have : joinCh ' ' ([] ++ [t]) = t := by simp [joinCh]
          rw [this]
          have : t ++ (ts.map (fun u => ' ' :: u)).flatten = joinCh ' ' (t :: ts) := by
            simp [joinCh]
          rw [this, ← hsc, joinCh_splitCh]

/-- Witness for C5 (amended) at `overhead = 0` and a two-word text: the
space-path round trip holds there. -/
theorem cutMessage_bound_and_join_witness :
    (0 : Int) ≤ 506
    ∧ joinCh ' ' (cutMessage (gs "hello world") 0) = gs "hello world" :=
  ⟨by decide,
   (cutMessage_bound_and_join (gs "hello world") 0 (by decide)).2.2 (by decide) (by decide)⟩

/-- C5 counterexample: `CutMessage(" a", 0)` takes the space path (chosen
separator: one space) but returns `["a"]`, and joining with the space
separator yields `"a"`, not the original text `" a"` — the leading space is
lost, so the round-trip clause of the claim fails. -/
theorem cutMessage_loses_leading_space :
    cutMessage (gs " a") 0 = [gs "a"]
    ∧ (splitCh ' ' (gs " a")).any (fun t => decide ((byteLen t : Int) ≥ 510 - 0)) = false
    ∧ joinCh ' ' (cutMessage (gs " a") 0) ≠ gs " a" := by
  refine ⟨rfl, rfl, by decide⟩

/-! ## Userlist order lemmas (toward claims C6, C9, C10) -/

theorem strLtB_irrefl : ∀ a : GoStr, strLtB a a = false := by
  intro a
  induction a with
  | nil => rfl
  | cons c cs ih => simp [strLtB, ih]

theorem strLtB_asymm : ∀ a b : GoStr, strLtB a b = true → strLtB b a = false := by
  intro a
  induction a with
  | nil =>
      intro b h
      cases b with
      | nil => simp [strLtB] at h
      | cons y bs => rfl
  | cons x as ih =>
      intro b h
      cases b with
      | nil => simp [strLtB] at h
      | cons y bs =>
          simp only [strLtB] at h ⊢
          rcases lt_trichotomy x y with hxy | hxy | hxy
          · simp [hxy, not_lt.mpr (le_of_lt hxy)]
          · subst hxy
            simp only [lt_irrefl, if_false] at h ⊢
            exact ih bs h
          · simp [hxy, not_lt.mpr (le_of_lt hxy)] at h

theorem strLtB_eq_of_not_lt : ∀ a b : GoStr, strLtB a b = false → strLtB b a = false → a = b := by
  intro a
  induction a with
  | nil =>
      intro b h1 _
      cases b with
      | nil => rfl
      | cons y bs => simp [strLtB] at h1
  | cons x as ih =>
      intro b h1 h2
      cases b with
      | nil => simp [strLtB] at h2
      | cons y bs =>
          simp only [strLtB] at h1 h2
          rcases lt_trichotomy x y with hxy | hxy | hxy
          · simp [hxy] at h1
          · subst hxy
            simp only [lt_irrefl, if_false] at h1 h2
            rw [ih bs h1 h2]
          · simp [hxy] at h2

theorem strLtB_trans : ∀ a b c : GoStr, strLtB a b = true → strLtB b c = true → strLtB a c = true := by
  intro a
  induction a with
  | nil =>
      intro b c h1 h2
      cases c with
      | nil =>
          cases b with
          | nil => simp [strLtB] at h1
          | cons y bs => simp [strLtB] at h2
      | cons z cs => rfl
  | cons x as ih =>
      intro b c h1 h2
      cases b with
      | nil => simp [strLtB] at h1
      | cons y bs =>
          cases c with
          | nil => simp [strLtB] at h2
          | cons z cs =>
              simp only [strLtB] at h1 h2 ⊢
              rcases lt_trichotomy x y with hxy | hxy | hxy
              · rcases lt_trichotomy y z with hyz | hyz | hyz
                · simp [lt_trans hxy hyz]
                · subst hyz; simp [hxy]
                · exfalso; simp [hyz, not_lt.mpr (le_of_lt hyz)] at h2
              · subst hxy
                simp only [lt_irrefl, if_false] at h1
                rcases lt_trichotomy x z with hyz | hyz | hyz
                · simp [hyz]
                · subst hyz
                  simp only [lt_irrefl, if_false] at h2 ⊢
                  exact ih bs cs h1 h2
                · exfalso; simp [hyz, not_lt.mpr (le_of_lt hyz)] at h2
              · exfalso; simp [hxy, not_lt.mpr (le_of_lt hxy)] at h1

theorem sortRank_zero (su : SupportState) : sortRank su runeZero = su.modeOrder.length + 1 := by
  simp [sortRank]

theorem sortRank_ne_zero (su : SupportState) {c : Char} (h : ¬ c = runeZero) :
    sortRank su c = su.modeOrder.indexOf c := by
  simp [sortRank, h]

theorem scanHigher_eq (cur oth : Char) (h : cur ≠ oth) :
    ∀ order : GoStr, scanHigher cur oth order
      = decide (order.indexOf cur < order.indexOf oth) := by
  intro order
  induction order with
  | nil => simp [scanHigher, List.indexOf_nil]
  | cons m rest ih =>
      simp only [scanHigher, List.indexOf_cons]
      by_cases hmc : m = cur
      · subst hmc
        have hb : (m == oth) = false := by simp [h]
        simp [h, hb]
      · by_cases hmo : m = oth
        · subst hmo
          simp [hmc, beq_iff_eq]
        · simp only [if_neg hmc, if_neg hmo, ih]
          have hb1 : (m == cur) = false := by simp [hmc]
          have hb2 : (m == oth) = false := by simp [hmo]
          rw [hb1, hb2]
          simp [Nat.add_lt_add_iff_right]

theorem isModeHigher_eq (su : SupportState) (x y : Char) :
    isModeHigher su x y = decide (sortRank su x < sortRank su y) := by
  by_cases hxy : x = y
  · subst hxy; simp [isModeHigher]
  · by_cases h0x : x = runeZero
    · subst h0x
      have h0y : ¬ y = runeZero := fun h => hxy h.symm
      rw [sortRank_zero, sortRank_ne_zero su h0y]
      have := List.indexOf_le_length (a := y) (l := su.modeOrder)
      have hlhs : isModeHigher su runeZero y = false := by
        simp [isModeHigher, hxy]
      rw [hlhs]
      symm
      simp only [decide_eq_false_iff_not]
      omega
    · by_cases h0y : y = runeZero
      · subst h0y
        rw [sortRank_zero, sortRank_ne_zero su h0x]
        have := List.indexOf_le_length (a := x) (l := su.modeOrder)
        have hlhs : isModeHigher su x runeZero = true := by
          simp [isModeHigher, hxy, h0x]
        rw [hlhs]
        symm
        simp only [decide_eq_true_eq]
        omega
      · rw [sortRank_ne_zero su h0x, sortRank_ne_zero su h0y]
        have hlhs : isModeHigher su x y = scanHigher x y su.modeOrder := by
          simp [isModeHigher, hxy, h0x, h0y]
        rw [hlhs]
        exact scanHigher_eq x y hxy su.modeOrder

theorem keyLe_trans {a b c : Nat × GoStr} (h1 : keyLe a b) (h2 : keyLe b c) : keyLe a c := by
  unfold keyLe keyLt at *
  push_neg at h1 h2
  intro hlt
  rcases hlt with hr | ⟨hr, hn⟩
  · have hba := h1.1
    have hcb := h2.1
    omega
  · have hba := h1.1
    have hcb := h2.1
    have hrb : b.1 = a.1 := by omega
    have hrc : c.1 = b.1 := by omega
    have hnb := h1.2 hrb
    have hnc := h2.2 hrc
    rcases hb : strLtB a.2 b.2 with _ | _
    · have : a.2 = b.2 := strLtB_eq_of_not_lt a.2 b.2 hb (by simpa using hnb)
      rw [← this] at hnc
      exact absurd hn (by simpa using hnc)
    · have := strLtB_trans c.2 a.2 b.2 hn hb
      exact absurd this (by simpa using hnc)

theorem rank_ne_of_goodMode (su : SupportState) {x y : Char}
    (hx : x = runeZero ∨ x ∈ su.modeOrder) (hy : y = runeZero ∨ y ∈ su.modeOrder)
    (hxy : x ≠ y) : sortRank su x ≠ sortRank su y := by
  by_cases h0x : x = runeZero
  · subst h0x
    have h0y : ¬ y = runeZero := fun h => hxy h.symm
    have hym : y ∈ su.modeOrder := hy.resolve_left h0y
    rw [sortRank_zero, sortRank_ne_zero su h0y]
    have := List.indexOf_lt_length.mpr hym
    omega
  · have hxm : x ∈ su.modeOrder := hx.resolve_left h0x
    by_cases h0y : y = runeZero
    · subst h0y
      rw [sortRank_zero, sortRank_ne_zero su h0x]
      have := List.indexOf_lt_length.mpr hxm
      omega
    · have hym : y ∈ su.modeOrder := hy.resolve_left h0y
      rw [sortRank_ne_zero su h0x, sortRank_ne_zero su h0y]
      intro heq
      have hxl := List.indexOf_lt_length.mpr hxm
      have hyl := List.indexOf_lt_length.mpr hym
      have hgx := List.indexOf_get (a := x) (l := su.modeOrder) hxl
      have hgy := List.indexOf_get (a := y) (l := su.modeOrder) hyl
      apply hxy
      rw [← hgx, ← hgy]
      congr 1
      exact Fin.ext heq

/-- A user whose highest mode is either absent or drawn from `modeOrder`;
every user a reachable list stores satisfies this. -/
def goodUser (su : SupportState) (u : ChanUser) : Prop :=
  highestMode u = runeZero ∨ highestMode u ∈ su.modeOrder

theorem goodUser_of_modes (su : SupportState) (u : ChanUser)
    (h : ∀ c ∈ u.modes, c ∈ su.modeOrder) : goodUser su u := by
  unfold goodUser highestMode
  cases hm : u.modes with
  | nil => left; rfl
  | cons c cs =>
      right
      exact h c (by rw [hm]; exact List.mem_cons_self c cs)

theorem goodUser_zero (su : SupportState) : goodUser su zeroUser := Or.inl rfl

theorem lessU_unfold (su : SupportState) (arena : List ChanUser) (p q : Nat) :
    lessU su arena p q =
      if highestMode (arena.getD p zeroUser) ≠ highestMode (arena.getD q zeroUser)
      then isModeHigher su (highestMode (arena.getD p zeroUser)) (highestMode (arena.getD q zeroUser))
      else strLtB (toLowerStr (arena.getD p zeroUser).nick) (toLowerStr (arena.getD q zeroUser).nick) :=
  rfl

theorem lessU_eq_keyLt (su : SupportState) (arena : List ChanUser) (p q : Nat)
    (hp : goodUser su (arena.getD p zeroUser)) (hq : goodUser su (arena.getD q zeroUser)) :
    lessU su arena p q
      = decide (keyLt (keyOfUser su (arena.getD p zeroUser)) (keyOfUser su (arena.getD q zeroUser))) := by
  by_cases hm : highestMode (arena.getD p zeroUser) = highestMode (arena.getD q zeroUser)
  · have hr : sortRank su (highestMode (arena.getD p zeroUser))
        = sortRank su (highestMode (arena.getD q zeroUser)) := by rw [hm]
    have hless : lessU su arena p q
        = strLtB (toLowerStr (arena.getD p zeroUser).nick) (toLowerStr (arena.getD q zeroUser).nick) := by
      rw [lessU_unfold, if_neg (not_not_intro hm)]
    rw [hless]
    cases hlt : strLtB (toLowerStr (arena.getD p zeroUser).nick) (toLowerStr (arena.getD q zeroUser).nick) with
    | false =>
        symm
        simp only [decide_eq_false_iff_not]
        intro hk
        rcases hk with hk | ⟨_, hk⟩
        · simp only [keyOfUser] at hk; omega
        · simp only [keyOfUser] at hk
          rw [hlt] at hk
          exact Bool.false_ne_true hk
    | true =>
        symm
        simp only [decide_eq_true_eq]
        right
        exact ⟨by simpa [keyOfUser] using hr, by simpa [keyOfUser] using hlt⟩
  · have hrne := rank_ne_of_goodMode su hp hq hm
    have hless : lessU su arena p q
        = isModeHigher su (highestMode (arena.getD p zeroUser)) (highestMode (arena.getD q zeroUser)) := by
      rw [lessU_unfold, if_pos hm]
    rw [hless, isModeHigher_eq]
    rw [decide_eq_decide]
    constructor
    · intro h; exact Or.inl h
    · intro h
      rcases h with h | ⟨h, _⟩
      · exact h
      · exact absurd h hrne

theorem lessU_asymm (su : SupportState) (arena : List ChanUser) (p q : Nat)
    (h : lessU su arena p q = true) : lessU su arena q p = false := by
  by_cases hm : highestMode (arena.getD p zeroUser) = highestMode (arena.getD q zeroUser)
  · have h1 : lessU su arena p q
        = strLtB (toLowerStr (arena.getD p zeroUser).nick) (toLowerStr (arena.getD q zeroUser).nick) := by
      rw [lessU_unfold, if_neg (not_not_intro hm)]
    have h2 : lessU su arena q p
        = strLtB (toLowerStr (arena.getD q zeroUser).nick) (toLowerStr (arena.getD p zeroUser).nick) := by
      rw [lessU_unfold, if_neg (not_not_intro hm.symm)]
    rw [h1] at h
    rw [h2]
    exact strLtB_asymm _ _ h
  · have h1 : lessU su arena p q
        = isModeHigher su (highestMode (arena.getD p zeroUser)) (highestMode (arena.getD q zeroUser)) := by
      rw [lessU_unfold, if_pos hm]
    have h2 : lessU su arena q p
        = isModeHigher su (highestMode (arena.getD q zeroUser)) (highestMode (arena.getD p zeroUser)) := by
      rw [lessU_unfold, if_pos (fun hh => hm (Eq.symm hh))]
    rw [h1, isModeHigher_eq] at h
    rw [h2, isModeHigher_eq]
    simp only [decide_eq_true_eq] at h
    simp only [decide_eq_false_iff_not]
    omega

theorem leU_total (su : SupportState) (arena : List ChanUser) (p q : Nat) :
    leU su arena p q ∨ leU su arena q p := by
  by_cases h : lessU su arena p q = true
  · left; exact lessU_asymm su arena p q h
  · right; exact Bool.eq_false_iff.mpr h

theorem goodUser_getD (su : SupportState) (arena : List ChanUser)
    (hwf : ∀ u ∈ arena, goodUser su u) (t : Nat) : goodUser su (arena.getD t zeroUser) := by
  by_cases ht : t < arena.length
  · apply hwf
    rw [List.getD_eq_getElem?_getD, List.getElem?_eq_getElem ht]
    exact List.getElem_mem ht
  · rw [List.getD_eq_getElem?_getD, List.getElem?_eq_none (by omega)]
    exact goodUser_zero su

theorem leU_trans (su : SupportState) (arena : List ChanUser)
    (hwf : ∀ u ∈ arena, goodUser su u) (p q r : Nat) :
    leU su arena p q → leU su arena q r → leU su arena p r := by
  intro h1 h2
  unfold leU at *
  rw [lessU_eq_keyLt su arena q p (goodUser_getD su arena hwf q) (goodUser_getD su arena hwf p)] at h1
  rw [lessU_eq_keyLt su arena r q (goodUser_getD su arena hwf r) (goodUser_getD su arena hwf q)] at h2
  rw [lessU_eq_keyLt su arena r p (goodUser_getD su arena hwf r) (goodUser_getD su arena hwf p)]
  simp only [decide_eq_false_iff_not] at h1 h2 ⊢
  exact keyLe_trans (h1 : keyLe _ _) (h2 : keyLe _ _)

theorem sortUsers_users_perm (su : SupportState) (s : Userlist) :
    (sortUsers su s).users.Perm s.users := List.perm_insertionSort _ _

theorem sortUsers_pairwise (su : SupportState) (s : Userlist)
    (hwf : ∀ u ∈ s.arena, goodUser su u) :
    (sortUsers su s).users.Pairwise (leU su s.arena) := by
  haveI : IsTotal Nat (leU su s.arena) := ⟨leU_total su s.arena⟩
  haveI : IsTrans Nat (leU su s.arena) := ⟨fun a b c => leU_trans su s.arena hwf a b c⟩
  exact List.sorted_insertionSort _ _

theorem sortedByRankNick_of_pairwise (su : SupportState) (s : Userlist)
    (hwf : ∀ u ∈ s.arena, goodUser su u)
    (h : s.users.Pairwise (leU su s.arena)) : sortedByRankNick su s := by
  unfold sortedByRankNick
  rw [List.pairwise_map]
  refine h.imp ?_
  intro p q hle
  unfold leU at hle
  rw [lessU_eq_keyLt su s.arena q p (goodUser_getD su s.arena hwf q)
    (goodUser_getD su s.arena hwf p)] at hle
  simp only [decide_eq_false_iff_not] at hle
  exact hle

/-! #### Association-list map lemmas -/

section MapLemmas

variable {κ α : Type} [DecidableEq κ]

theorem mapGet_replace_self (m : List (κ × α)) (k : κ) (v : α)
    (h : (m.find? (fun p => p.1 = k)).isSome = true) :
    mapGet (m.map (fun p => if p.1 = k then (k, v) else p)) k = some v := by
  induction m with
  | nil => simp [List.find?] at h
  | cons a as ih =>
      by_cases hk : a.1 = k
      · unfold mapGet
        rw [List.map_cons, if_pos hk, List.find?_cons_of_pos _ (by simp)]
        rfl
      · have h' : (as.find? (fun p => p.1 = k)).isSome = true := by
          rwa [List.find?_cons_of_neg _ (by simp [hk])] at h
        have := ih h'
        unfold mapGet at this ⊢
        rw [List.map_cons, if_neg hk, List.find?_cons_of_neg _ (by simp [hk])]
        exact this

theorem mapGet_append_self (m : List (κ × α)) (k : κ) (v : α)
    (h : m.find? (fun p => p.1 = k) = none) :
    mapGet (m ++ [(k, v)]) k = some v := by
  induction m with
  | nil => simp [mapGet, List.find?]
  | cons a as ih =>
      by_cases hk : a.1 = k
      · rw [List.find?_cons_of_pos _ (by simp [hk])] at h
        exact absurd h (by simp)
      · rw [List.find?_cons_of_neg _ (by simp [hk])] at h
        have := ih h
        unfold mapGet at this ⊢
        rw [List.cons_append, List.find?_cons_of_neg _ (by simp [hk])]
        exact this

theorem mapGet_set_self (m : List (κ × α)) (k : κ) (v : α) :
    mapGet (mapSet m k v) k = some v := by
  unfold mapSet
  by_cases h : (m.find? (fun p => p.1 = k)).isSome
  · rw [if_pos h]
    exact mapGet_replace_self m k v h
  · rw [if_neg h]
    apply mapGet_append_self
    exact Option.not_isSome_iff_eq_none.mp h

theorem mapGet_set_ne (m : List (κ × α)) (k k' : κ) (v : α) (h : k' ≠ k) :
    mapGet (mapSet m k v) k' = mapGet m k' := by
  unfold mapSet
  by_cases hf : (m.find? (fun p => p.1 = k)).isSome
  · rw [if_pos hf]
    clear hf
    induction m with
    | nil => rfl
    | cons a as ih =>
        by_cases hk : a.1 = k
        · have hk' : ¬ ((k, v).1 = k') := fun hh => h hh.symm
          have ha' : ¬ (a.1 = k') := by rw [hk]; exact fun hh => h hh.symm
          unfold mapGet at ih ⊢
          rw [List.map_cons, if_pos hk, List.find?_cons_of_neg _ (by simp [hk']),
            List.find?_cons_of_neg _ (by simp [ha'])]
          exact ih
        · unfold mapGet at ih ⊢
          rw [List.map_cons, if_neg hk]
          by_cases hd : a.1 = k'
          · rw [List.find?_cons_of_pos _ (by simp [hd]), List.find?_cons_of_pos _ (by simp [hd])]
          · rw [List.find?_cons_of_neg _ (by simp [hd]), List.find?_cons_of_neg _ (by simp [hd])]
            exact ih
  · rw [if_neg hf]
    clear hf
    induction m with
    | nil =>
        unfold mapGet
        rw [List.nil_append, List.find?_cons_of_neg _
          (by simp only [decide_eq_true_eq]; exact fun hh => h hh.symm)]
    | cons a as ih =>
        unfold mapGet at ih ⊢
        rw [List.cons_append]
        by_cases hd : a.1 = k'
        · rw [List.find?_cons_of_pos _ (by simp [hd]), List.find?_cons_of_pos _ (by simp [hd])]
        · rw [List.find?_cons_of_neg _ (by simp [hd]), List.find?_cons_of_neg _ (by simp [hd])]
          exact ih

theorem mapGet_del_self (m : List (κ × α)) (k : κ) :
    mapGet (mapDel m k) k = none := by
  unfold mapDel
  induction m with
  | nil => rfl
  | cons a as ih =>
      by_cases hk : a.1 = k
      · rw [List.filter_cons_of_neg (by simp [hk])]
        exact ih
      · rw [List.filter_cons_of_pos (by simp [hk])]
        unfold mapGet at ih ⊢
        rw [List.find?_cons_of_neg _ (by simp [hk])]
        exact ih

theorem mapGet_del_ne (m : List (κ × α)) (k k' : κ) (h : k' ≠ k) :
    mapGet (mapDel m k) k' = mapGet m k' := by
  unfold mapDel
  induction m with
  | nil => rfl
  | cons a as ih =>
      by_cases hk : a.1 = k
      · have ha' : ¬ (a.1 = k') := by rw [hk]; exact fun hh => h hh.symm
        rw [List.filter_cons_of_neg (by simp [hk])]
        unfold mapGet at ih ⊢
        rw [List.find?_cons_of_neg _ (by simp [ha'])]
        exact ih
      · rw [List.filter_cons_of_pos (by simp [hk])]
        unfold mapGet at ih ⊢
        by_cases hd : a.1 = k'
        · rw [List.find?_cons_of_pos _ (by simp [hd]), List.find?_cons_of_pos _ (by simp [hd])]
        · rw [List.find?_cons_of_neg _ (by simp [hd]), List.find?_cons_of_neg _ (by simp [hd])]
          exact ih

theorem mapGet_eq_none_iff (m : List (κ × α)) (k : κ) :
    mapGet m k = none ↔ ∀ p ∈ m, p.1 ≠ k := by
  unfold mapGet
  rw [Option.map_eq_none', List.find?_eq_none]
  constructor
  · intro h p hp
    have := h p hp
    simpa using this
  · intro h p hp
    simpa using h p hp

theorem mapGet_mem (m : List (κ × α)) (k : κ) (v : α) (h : mapGet m k = some v) :
    (k, v) ∈ m := by
  unfold mapGet at h
  rcases hf : m.find? (fun p => p.1 = k) with _ | entry
  · rw [hf] at h; simp at h
  · rw [hf] at h
    simp only [Option.map_some', Option.some.injEq] at h
    have hmem := List.mem_of_find?_eq_some hf
    have hkey := List.find?_some hf
    simp only [decide_eq_true_eq] at hkey
    have hent : entry = (k, v) := by
      cases entry
      simp only at hkey h
      rw [hkey, h]
    rw [← hent]
    exact hmem

end MapLemmas

/-! #### Arena access lemmas -/

theorem getD_append_lt {α : Type} (l l' : List α) (d : α) (n : Nat) (h : n < l.length) :
    (l ++ l').getD n d = l.getD n d := by
  simp [List.getD, List.getElem?_append, h]

theorem getD_append_self {α : Type} (l : List α) (u d : α) :
    (l ++ [u]).getD l.length d = u := by
  simp [List.getD, List.getElem?_append]

theorem getD_set_self {α : Type} (l : List α) (n : Nat) (a d : α) (h : n < l.length) :
    (l.set n a).getD n d = a := by
  simp [List.getD, List.getElem?_set, h]

theorem getD_set_ne {α : Type} (l : List α) (n m : Nat) (a d : α) (h : n ≠ m) :
    (l.set n a).getD m d = l.getD m d := by
  simp [List.getD, List.getElem?_set, h]

theorem getD_of_le {α : Type} (l : List α) (n : Nat) (d : α) (h : l.length ≤ n) :
    l.getD n d = d := by
  simp [List.getD, List.getElem?_eq_none h]

theorem getD_mem {α : Type} (l : List α) (n : Nat) (d : α) (h : n < l.length) :
    l.getD n d ∈ l := by
  rw [List.getD_eq_getElem?_getD, List.getElem?_eq_getElem h]
  exact List.getElem_mem h

/-! #### The userlist invariant -/

/-- The internal well-formedness of a userlist reached by operations: valid
pointers, injective lowercased nick keys, an index that holds exactly the
members, prefixed nicks as specified, normalized modes, and sortedness
whenever autosort is on. -/
structure ListInv (su : SupportState) (s : Userlist) : Prop where
  ptrs : ∀ p ∈ s.users, p < s.arena.length
  keysNodup : (s.users.map (fun p => toLowerStr (resolveU s p).nick)).Nodup
  idxSound : ∀ k p, mapGet s.index k = some p →
    p ∈ s.users ∧ toLowerStr (resolveU s p).nick = k
  idxComplete : ∀ p ∈ s.users, mapGet s.index (toLowerStr (resolveU s p).nick) = some p
  pfx : ∀ u ∈ s.arena, u.prefixedNick = specPrefixedNick u
  goodModes : ∀ u ∈ s.arena, ∀ c ∈ u.modes, c ∈ su.modeOrder
  sorted : s.autosort = true → s.users.Pairwise (leU su s.arena)

theorem ListInv.new (su : SupportState) : ListInv su Userlist.new := by
  refine ⟨?_, ?_, ?_, ?_, ?_, ?_, ?_⟩ <;> simp [Userlist.new, mapGet, resolveU, List.find?]

theorem ListInv.usersNodup {su : SupportState} {s : Userlist} (h : ListInv su s) :
    s.users.Nodup := h.keysNodup.of_map _

theorem ListInv.goodArena {su : SupportState} {s : Userlist} (h : ListInv su s) :
    ∀ u ∈ s.arena, goodUser su u :=
  fun u hu => goodUser_of_modes su u (h.goodModes u hu)

theorem ListInv.keyInj {su : SupportState} {s : Userlist} (h : ListInv su s) :
    ∀ p ∈ s.users, ∀ q ∈ s.users,
      toLowerStr (resolveU s p).nick = toLowerStr (resolveU s q).nick → p = q := by
  have := h.keysNodup
  intro p hp q hq hk
  by_contra hne
  have h1 := h.idxComplete p hp
  have h2 := h.idxComplete q hq
  rw [hk] at h1
  rw [h1] at h2
  exact hne (Option.some.injEq .. ▸ h2 :)

/-- `refreshPrefixedNick` establishes the specified prefixed nick and
changes no other field. -/
theorem refreshPrefixedNick_fields (u : ChanUser) :
    (refreshPrefixedNick u).prefixedNick = specPrefixedNick (refreshPrefixedNick u)
    ∧ (refreshPrefixedNick u).nick = u.nick
    ∧ (refreshPrefixedNick u).modes = u.modes
    ∧ (refreshPrefixedNick u).prefixes = u.prefixes
    ∧ (refreshPrefixedNick u).user = u.user
    ∧ (refreshPrefixedNick u).host = u.host
    ∧ (refreshPrefixedNick u).account = u.account := by
  cases hp : u.prefixes with
  | nil => simp [refreshPrefixedNick, specPrefixedNick, hp]
  | cons c cs => simp [refreshPrefixedNick, specPrefixedNick, hp]

theorem sortModes_subset (su : SupportState) (m : GoStr) :
    ∀ c ∈ sortModes su m, c ∈ su.modeOrder := by
  intro c hc
  unfold sortModes at hc
  rw [List.mem_flatten] at hc
  obtain ⟨block, hblock, hcb⟩ := hc
  rw [List.mem_map] at hblock
  obtain ⟨ch, hch, rfl⟩ := hblock
  have := List.mem_filter.mp hcb
  have hceq : c = ch := by simpa using this.2
  rw [hceq]
  exact hch

theorem normalizeUser_props (su : SupportState) (u0 : ChanUser) :
    (normalizeUser su u0).prefixedNick = specPrefixedNick (normalizeUser su u0)
    ∧ (normalizeUser su u0).nick = u0.nick
    ∧ (∀ c ∈ (normalizeUser su u0).modes, c ∈ su.modeOrder) := by
  unfold normalizeUser
  by_cases hm : u0.modes ≠ []
  · rw [if_pos hm]
    refine ⟨(refreshPrefixedNick_fields _).1, (refreshPrefixedNick_fields _).2.1, ?_⟩
    intro c hc
    rw [(refreshPrefixedNick_fields _).2.2.1] at hc
    exact sortModes_subset su u0.modes c hc
  · rw [if_neg hm]
    refine ⟨(refreshPrefixedNick_fields _).1, (refreshPrefixedNick_fields _).2.1, ?_⟩
    intro c hc
    rw [(refreshPrefixedNick_fields _).2.2.1] at hc
    rw [not_not.mp hm] at hc
    exact absurd hc (List.not_mem_nil c)

/-- `lessU` reads only the highest mode and folded nick of the two resolved
users, so arenas agreeing on those at two pointers compare them equally. -/
theorem lessU_eq_of_proj (su : SupportState) (a1 a2 : List ChanUser) (x y : Nat)
    (hx1 : highestMode (a1.getD x zeroUser) = highestMode (a2.getD x zeroUser))
    (hx2 : toLowerStr (a1.getD x zeroUser).nick = toLowerStr (a2.getD x zeroUser).nick)
    (hy1 : highestMode (a1.getD y zeroUser) = highestMode (a2.getD y zeroUser))
    (hy2 : toLowerStr (a1.getD y zeroUser).nick = toLowerStr (a2.getD y zeroUser).nick) :
    lessU su a1 x y = lessU su a2 x y := by
  rw [lessU_unfold, lessU_unfold, hx1, hx2, hy1, hy2]

/-- The invariant without the sortedness component, for states about to be
sorted (or shown sorted separately). -/
structure PreInv (su : SupportState) (s : Userlist) : Prop where
  ptrs : ∀ p ∈ s.users, p < s.arena.length
  keysNodup : (s.users.map (fun p => toLowerStr (resolveU s p).nick)).Nodup
  idxSound : ∀ k p, mapGet s.index k = some p →
    p ∈ s.users ∧ toLowerStr (resolveU s p).nick = k
  idxComplete : ∀ p ∈ s.users, mapGet s.index (toLowerStr (resolveU s p).nick) = some p
  pfx : ∀ u ∈ s.arena, u.prefixedNick = specPrefixedNick u
  goodModes : ∀ u ∈ s.arena, ∀ c ∈ u.modes, c ∈ su.modeOrder

theorem ListInv.toPre {su : SupportState} {s : Userlist} (h : ListInv su s) : PreInv su s :=
  ⟨h.ptrs, h.keysNodup, h.idxSound, h.idxComplete, h.pfx, h.goodModes⟩

theorem PreInv.arenaGood {su : SupportState} {s : Userlist} (h : PreInv su s) :
    ∀ u ∈ s.arena, goodUser su u :=
  fun u hu => goodUser_of_modes su u (h.goodModes u hu)

theorem PreInv.sort {su : SupportState} {s : Userlist} (h : PreInv su s) :
    ListInv su (sortUsers su s) := by
  have hperm := sortUsers_users_perm su s
  have harena : (sortUsers su s).arena = s.arena := rfl
  have hidx : (sortUsers su s).index = s.index := rfl
  refine ⟨?_, ?_, ?_, ?_, ?_, ?_, ?_⟩
  · intro p hp
    exact h.ptrs p (hperm.mem_iff.mp hp)
  · exact ((hperm.map _).nodup_iff).mpr h.keysNodup
  · intro k p hk
    obtain ⟨hmem, hkey⟩ := h.idxSound k p hk
    exact ⟨hperm.mem_iff.mpr hmem, hkey⟩
  · intro p hp
    exact h.idxComplete p (hperm.mem_iff.mp hp)
  · exact h.pfx
  · exact h.goodModes
  · intro _
    exact sortUsers_pairwise su s h.arenaGood

theorem PreInv.noSort {su : SupportState} {s : Userlist} (h : PreInv su s)
    (hs : s.autosort = true → s.users.Pairwise (leU su s.arena)) : ListInv su s :=
  ⟨h.ptrs, h.keysNodup, h.idxSound, h.idxComplete, h.pfx, h.goodModes, hs⟩

theorem finish_branch (su : SupportState) (s1 : Userlist) (h : PreInv su s1) :
    ListInv su (if s1.autosort = true then sortUsers su s1 else s1) := by
  cases haut : s1.autosort with
  | true => rw [if_pos rfl]; exact h.sort
  | false =>
      rw [if_neg (by simp)]
      refine h.noSort (fun hh => ?_)
      rw [haut] at hh
      exact absurd hh (by simp)

theorem insertUser_inv (su : SupportState) (s : Userlist) (u0 : ChanUser)
    (h : ListInv su s) : ListInv su (insertUser su s u0).1 := by
  by_cases hdup : (mapGet s.index (toLowerStr (normalizeUser su u0).nick)).isSome = true
  · have heq : (insertUser su s u0).1 = s := by
      simp only [insertUser, hdup, if_true]
    rw [heq]
    exact h
  · have hnone : mapGet s.index (toLowerStr (normalizeUser su u0).nick) = none :=
      Option.not_isSome_iff_eq_none.mp hdup
    have hfalse : (mapGet s.index (toLowerStr (normalizeUser su u0).nick)).isSome = false := by
      rw [hnone]; rfl
    set u := normalizeUser su u0 with hu
    set L := s.arena.length with hL
    set s1 : Userlist :=
      { s with arena := s.arena ++ [u], users := s.users ++ [L]
               index := mapSet s.index (toLowerStr u.nick) L } with hs1
    have heq : (insertUser su s u0).1 = if s1.autosort = true then sortUsers su s1 else s1 := by
      simp only [insertUser, hfalse, Bool.false_eq_true, if_false, ← hu, ← hL, ← hs1]
    rw [heq]
    have hres_old : ∀ p ∈ s.users, resolveU s1 p = resolveU s p := by
      intro p hp
      exact getD_append_lt s.arena [u] zeroUser p (h.ptrs p hp)
    have hres_new : resolveU s1 L = u := getD_append_self s.arena u zeroUser
    have hkey_not_old : ∀ p ∈ s.users, toLowerStr (resolveU s p).nick ≠ toLowerStr u.nick := by
      intro p hp hkeq
      have := h.idxComplete p hp
      rw [hkeq] at this
      rw [this] at hnone
      exact Option.noConfusion hnone
    have hpre : PreInv su s1 := by
      refine ⟨?_, ?_, ?_, ?_, ?_, ?_⟩
      · intro p hp
        have harena1 : s1.arena.length = s.arena.length + 1 := by
          simp [hs1]
        rcases List.mem_append.mp hp with hmem | hmem
        · have := h.ptrs p hmem; omega
        · simp only [List.mem_singleton] at hmem
          subst hmem
          omega
      · have hmapeq : s1.users.map (fun p => toLowerStr (resolveU s1 p).nick)
            = s.users.map (fun p => toLowerStr (resolveU s p).nick) ++ [toLowerStr u.nick] := by
          rw [show s1.users = s.users ++ [L] from rfl, List.map_append]
          congr 1
          · exact List.map_congr_left (fun p hp => by rw [hres_old p hp])
          · simp [hres_new]
        rw [hmapeq, List.nodup_append]
        refine ⟨h.keysNodup, List.nodup_singleton _, ?_⟩
        intro k hk
        rw [List.mem_map] at hk
        obtain ⟨p, hp, rfl⟩ := hk
        simp only [List.mem_singleton]
        exact hkey_not_old p hp
      · intro k p hk
        by_cases hkk : k = toLowerStr u.nick
        · subst hkk
          rw [show s1.index = mapSet s.index (toLowerStr u.nick) L from rfl,
            mapGet_set_self] at hk
          have hpL : L = p := by injection hk
          subst hpL
          refine ⟨List.mem_append.mpr (Or.inr (List.mem_singleton.mpr rfl)), by rw [hres_new]⟩
        · rw [show s1.index = mapSet s.index (toLowerStr u.nick) L from rfl,
            mapGet_set_ne _ _ _ _ hkk] at hk
          obtain ⟨hmem, hkeq⟩ := h.idxSound k p hk
          exact ⟨List.mem_append.mpr (Or.inl hmem), by rw [hres_old p hmem]; exact hkeq⟩
      · intro p hp
        rcases List.mem_append.mp hp with hmem | hmem
        · rw [hres_old p hmem]
          have hne := hkey_not_old p hmem
          rw [show s1.index = mapSet s.index (toLowerStr u.nick) L from rfl,
            mapGet_set_ne _ _ _ _ hne]
          exact h.idxComplete p hmem
        · simp only [List.mem_singleton] at hmem
          subst hmem
          rw [hres_new]
          exact mapGet_set_self s.index (toLowerStr u.nick) L
      · intro v hv
        rcases List.mem_append.mp hv with hmem | hmem
        · exact h.pfx v hmem
        · simp only [List.mem_singleton] at hmem
          subst hmem
          exact (normalizeUser_props su u0).1
      · intro v hv c hc
        rcases List.mem_append.mp hv with hmem | hmem
        · exact h.goodModes v hmem c hc
        · simp only [List.mem_singleton] at hmem
          subst hmem
          exact (normalizeUser_props su u0).2.2 c hc
    exact finish_branch su s1 hpre

theorem preInv_arenaSet (su : SupportState) (s : Userlist) (p : Nat) (u' : ChanUser)
    (h : ListInv su s) (hp : p ∈ s.users)
    (hnick : u'.nick = (resolveU s p).nick)
    (hpfx' : u'.prefixedNick = specPrefixedNick u')
    (hmodes' : ∀ c ∈ u'.modes, c ∈ su.modeOrder) :
    PreInv su { s with arena := s.arena.set p u' } := by
  have plen : p < s.arena.length := h.ptrs p hp
  set s' : Userlist := { s with arena := s.arena.set p u' } with hs'
  have hresp : resolveU s' p = u' := getD_set_self s.arena p u' zeroUser plen
  have hresq : ∀ q, q ≠ p → resolveU s' q = resolveU s q := by
    intro q hq
    exact getD_set_ne s.arena p q u' zeroUser (fun hh => hq hh.symm)
  have hkeys : ∀ q ∈ s.users,
      toLowerStr (resolveU s' q).nick = toLowerStr (resolveU s q).nick := by
    intro q _
    by_cases hq : q = p
    · subst hq; rw [hresp, hnick]
    · rw [hresq q hq]
  refine ⟨?_, ?_, ?_, ?_, ?_, ?_⟩
  · intro q hq
    have : s'.arena.length = s.arena.length := by simp [hs']
    rw [this]
    exact h.ptrs q hq
  · have : s'.users.map (fun q => toLowerStr (resolveU s' q).nick)
        = s.users.map (fun q => toLowerStr (resolveU s q).nick) :=
      List.map_congr_left hkeys
    rw [this]
    exact h.keysNodup
  · intro k q hk
    obtain ⟨hmem, hkey⟩ := h.idxSound k q hk
    exact ⟨hmem, by rw [hkeys q hmem]; exact hkey⟩
  · intro q hq
    rw [hkeys q hq]
    exact h.idxComplete q hq
  · intro v hv
    rcases List.mem_or_eq_of_mem_set hv with hmem | rfl
    · exact h.pfx v hmem
    · exact hpfx'
  · intro v hv c hc
    rcases List.mem_or_eq_of_mem_set hv with hmem | rfl
    · exact h.goodModes v hmem c hc
    · exact hmodes' c hc

theorem pairwise_arenaSet (su : SupportState) (s : Userlist) (p : Nat) (u' : ChanUser)
    (plen : p < s.arena.length)
    (hhm : highestMode u' = highestMode (resolveU s p))
    (hnick : toLowerStr u'.nick = toLowerStr (resolveU s p).nick)
    (hsorted : s.users.Pairwise (leU su s.arena)) :
    s.users.Pairwise (leU su (s.arena.set p u')) := by
  have hproj1 : ∀ x, highestMode ((s.arena.set p u').getD x zeroUser)
      = highestMode (s.arena.getD x zeroUser) := by
    intro x
    by_cases hx : x = p
    · subst hx
      rw [getD_set_self s.arena x u' zeroUser plen]
      exact hhm
    · rw [getD_set_ne s.arena p x u' zeroUser (fun hh => hx hh.symm)]
  have hproj2 : ∀ x, toLowerStr ((s.arena.set p u').getD x zeroUser).nick
      = toLowerStr (s.arena.getD x zeroUser).nick := by
    intro x
    by_cases hx : x = p
    · subst hx
      rw [getD_set_self s.arena x u' zeroUser plen]
      exact hnick
    · rw [getD_set_ne s.arena p x u' zeroUser (fun hh => hx hh.symm)]
  refine hsorted.imp ?_
  intro q r hle
  unfold leU at hle ⊢
  rw [lessU_eq_of_proj su (s.arena.set p u') s.arena r q (hproj1 r) (hproj2 r)
    (hproj1 q) (hproj2 q)]
  exact hle

theorem addModeOp_inv (su : SupportState) (s : Userlist) (nick : GoStr) (mode : Char)
    (h : ListInv su s) : ListInv su (addModeOp su s nick mode).1 := by
  by_cases hpm : isPermissionMode su mode = true
  · cases hmg : mapGet s.index (toLowerStr nick) with
    | none =>
        have heq : (addModeOp su s nick mode).1 = s := by
          simp [addModeOp, hpm, hmg]
        rw [heq]; exact h
    | some p =>
        obtain ⟨hp, hkeyp⟩ := h.idxSound _ p hmg
        by_cases hct : containsCh (resolveU s p).modes mode = true
        · have heq : (addModeOp su s nick mode).1 = s := by
            simp [addModeOp, hpm, hmg, hct]
          rw [heq]; exact h
        · have hctf : containsCh (resolveU s p).modes mode = false :=
            Bool.eq_false_iff.mpr hct
          set u := resolveU s p with hu
          set newModes := sortModes su (u.modes ++ [mode]) with hnm
          set u' := refreshPrefixedNick
            { u with modes := newModes, prefixes := prefixesOf su newModes } with hu'
          set s' : Userlist := { s with arena := s.arena.set p u' } with hs'
          have heq : (addModeOp su s nick mode).1
              = if s'.autosort = true ∧ highestMode u ≠ highestMode u'
                then sortUsers su s' else s' := by
            simp only [addModeOp, hpm, Bool.not_true, Bool.false_eq_true, not_true, if_false,
              hmg, hctf, ← hu, ← hnm, ← hu', ← hs']
          rw [heq]
          have hnick' : u'.nick = u.nick := (refreshPrefixedNick_fields _).2.1
          have hmodes' : u'.modes = newModes := (refreshPrefixedNick_fields _).2.2.1
          have hpre : PreInv su s' :=
            preInv_arenaSet su s p u' h hp (by rw [hnick'])
              ((refreshPrefixedNick_fields _).1)
              (by rw [hmodes']; exact sortModes_subset su _)
          by_cases hcond : s'.autosort = true ∧ highestMode u ≠ highestMode u'
          · rw [if_pos hcond]; exact hpre.sort
          · rw [if_neg hcond]
            refine hpre.noSort (fun haut => ?_)
            have hhm : highestMode u' = highestMode u := by
              by_contra hne
              exact hcond ⟨haut, fun hh => hne hh.symm⟩
            exact pairwise_arenaSet su s p u' (h.ptrs p hp) hhm (by rw [hnick'])
              (h.sorted haut)
  · have heq : (addModeOp su s nick mode).1 = s := by
      simp [addModeOp, hpm]
    rw [heq]; exact h

theorem removeModeOp_inv (su : SupportState) (s : Userlist) (nick : GoStr) (mode : Char)
    (h : ListInv su s) : ListInv su (removeModeOp su s nick mode).1 := by
  by_cases hpm : isPermissionMode su mode = true
  · cases hmg : mapGet s.index (toLowerStr nick) with
    | none =>
        have heq : (removeModeOp su s nick mode).1 = s := by
          simp [removeModeOp, hpm, hmg]
        rw [heq]; exact h
    | some p =>
        obtain ⟨hp, hkeyp⟩ := h.idxSound _ p hmg
        by_cases hct : containsCh (resolveU s p).modes mode = true
        · set u := resolveU s p with hu
          set u' := refreshPrefixedNick
            { u with modes := u.modes.erase mode
                     prefixes := u.prefixes.erase (prefixOfMode su mode) } with hu'
          set s' : Userlist := { s with arena := s.arena.set p u' } with hs'
          have heq : (removeModeOp su s nick mode).1
              = if s'.autosort = true ∧ highestMode u ≠ highestMode u'
                then sortUsers su s' else s' := by
            simp only [removeModeOp, hpm, Bool.not_true, Bool.false_eq_true, not_true, if_false,
              hmg, hct, if_true, ← hu, ← hu', ← hs']
          rw [heq]
          have hnick' : u'.nick = u.nick := (refreshPrefixedNick_fields _).2.1
          have hmodes' : u'.modes = u.modes.erase mode := (refreshPrefixedNick_fields _).2.2.1
          have humem : u ∈ s.arena := getD_mem s.arena p zeroUser (h.ptrs p hp)
          have hpre : PreInv su s' :=
            preInv_arenaSet su s p u' h hp (by rw [hnick'])
              ((refreshPrefixedNick_fields _).1)
              (by
                rw [hmodes']
                intro c hc
                exact h.goodModes u humem c (List.mem_of_mem_erase hc))
          by_cases hcond : s'.autosort = true ∧ highestMode u ≠ highestMode u'
          · rw [if_pos hcond]; exact hpre.sort
          · rw [if_neg hcond]
            refine hpre.noSort (fun haut => ?_)
            have hhm : highestMode u' = highestMode u := by
              by_contra hne
              exact hcond ⟨haut, fun hh => hne hh.symm⟩
            exact pairwise_arenaSet su s p u' (h.ptrs p hp) hhm (by rw [hnick'])
              (h.sorted haut)
        · have hctf : containsCh (resolveU s p).modes mode = false :=
            Bool.eq_false_iff.mpr hct
          have heq : (removeModeOp su s nick mode).1 = s := by
            simp [removeModeOp, hpm, hmg, hctf]
          rw [heq]; exact h
  · have heq : (removeModeOp su s nick mode).1 = s := by
      simp [removeModeOp, hpm]
    rw [heq]; exact h

theorem patchOp_inv (su : SupportState) (s : Userlist) (nick : GoStr) (pt : GoUserPatch)
    (h : ListInv su s) : ListInv su (patchOp s nick pt).1 := by
  cases hfind : s.users.find? (fun p => toLowerStr (resolveU s p).nick = toLowerStr nick) with
  | none =>
      have heq : (patchOp s nick pt).1 = s := by
        simp [patchOp, hfind]
      rw [heq]; exact h
  | some p =>
      have hp : p ∈ s.users := List.mem_of_find?_eq_some hfind
      have plen : p < s.arena.length := h.ptrs p hp
      set u := resolveU s p with hu
      set u1 := if pt.account ≠ [] ∨ pt.clearAccount then { u with account := pt.account } else u
        with hu1
      set u2 := if pt.user ≠ [] then { u1 with user := pt.user } else u1 with hu2
      set u3 := if pt.host ≠ [] then { u2 with host := pt.host } else u2 with hu3
      have hfields : u3.nick = u.nick ∧ u3.modes = u.modes ∧ u3.prefixes = u.prefixes
          ∧ u3.prefixedNick = u.prefixedNick := by
        rw [hu3, hu2, hu1]
        refine ⟨?_, ?_, ?_, ?_⟩ <;> (split_ifs <;> rfl)
      have heq : (patchOp s nick pt).1 = { s with arena := s.arena.set p u3 } := by
        simp only [patchOp, hfind, ← hu, ← hu1, ← hu2, ← hu3]
      rw [heq]
      have humem : u ∈ s.arena := getD_mem s.arena p zeroUser plen
      have hpfxu : u3.prefixedNick = specPrefixedNick u3 := by
        rw [hfields.2.2.2, h.pfx u humem]
        unfold specPrefixedNick
        rw [hfields.1, hfields.2.2.1]
      have hpre : PreInv su { s with arena := s.arena.set p u3 } :=
        preInv_arenaSet su s p u3 h hp hfields.1 hpfxu
          (by rw [hfields.2.1]; exact h.goodModes u humem)
      refine hpre.noSort (fun haut => ?_)
      have hhm : highestMode u3 = highestMode u := by
        unfold highestMode
        rw [hfields.2.1]
      exact pairwise_arenaSet su s p u3 plen hhm (by rw [hfields.1]) (h.sorted haut)

theorem renameOp_inv (su : SupportState) (s : Userlist) (fromNick toNick : GoStr)
    (h : ListInv su s) : ListInv su (renameOp su s fromNick toNick).1 := by
  cases hf : mapGet s.index (toLowerStr fromNick) with
  | none =>
      have heq : (renameOp su s fromNick toNick).1 = s := by
        simp [renameOp, hf]
      rw [heq]; exact h
  | some p =>
      by_cases hft : fromNick = toNick
      · have heq : (renameOp su s fromNick toNick).1 = s := by
          simp only [renameOp, hf, hft, if_true, eq_self_iff_true]
          cases mapGet s.index (toLowerStr toNick) <;> rfl
        rw [heq]; exact h
      · by_cases hto : (mapGet s.index (toLowerStr toNick)).isSome = true
        · have heq : (renameOp su s fromNick toNick).1 = s := by
            simp [renameOp, hf, hft, hto]
          rw [heq]; exact h
        · have htonone : mapGet s.index (toLowerStr toNick) = none :=
            Option.not_isSome_iff_eq_none.mp hto
          have hto2 : (mapGet s.index (toLowerStr toNick)).isSome = false := by
            rw [htonone]; rfl
          obtain ⟨hp, hkeyp⟩ := h.idxSound _ p hf
          have plen := h.ptrs p hp
          set u' := refreshPrefixedNick { resolveU s p with nick := toNick } with hu'
          set s' : Userlist :=
            { s with arena := s.arena.set p u'
                     index := mapSet (mapDel s.index (toLowerStr fromNick)) (toLowerStr toNick) p }
            with hs'
          have hftP : (fromNick = toNick) = False := eq_false hft
          have heq : (renameOp su s fromNick toNick).1
              = if s'.autosort = true then sortUsers su s' else s' := by
            simp only [renameOp, hf, hftP, if_false, hto2, Bool.false_eq_true, ← hu', ← hs']
          rw [heq]
          have hresp : resolveU s' p = u' := getD_set_self s.arena p u' zeroUser plen
          have hresq : ∀ q, q ≠ p → resolveU s' q = resolveU s q := by
            intro q hq
            exact getD_set_ne s.arena p q u' zeroUser (fun hh => hq hh.symm)
          have hnick' : u'.nick = toNick := by
            rw [hu', (refreshPrefixedNick_fields _).2.1]
          have hnotold : ∀ q ∈ s.users,
              toLowerStr (resolveU s q).nick ≠ toLowerStr toNick := by
            intro q hq hqe
            have := h.idxComplete q hq
            rw [hqe] at this
            rw [this] at htonone
            exact Option.noConfusion htonone
          have hpre : PreInv su s' := by
            refine ⟨?_, ?_, ?_, ?_, ?_, ?_⟩
            · intro q hq
              have harena : s'.arena.length = s.arena.length := by simp [hs']
              rw [harena]
              exact h.ptrs q hq
            · refine List.Nodup.map_on ?_ h.usersNodup
              intro x hx y hy hxy
              by_cases hxp : x = p
              · by_cases hyp : y = p
                · rw [hxp, hyp]
                · exfalso
                  rw [hxp, hresp, hnick'] at hxy
                  rw [hresq y hyp] at hxy
                  exact hnotold y hy hxy.symm
              · by_cases hyp : y = p
                · exfalso
                  rw [hyp, hresp, hnick'] at hxy
                  rw [hresq x hxp] at hxy
                  exact hnotold x hx hxy
                · rw [hresq x hxp, hresq y hyp] at hxy
                  exact h.keyInj x hx y hy hxy
            · intro k q hk
              by_cases hkk : k = toLowerStr toNick
              · subst hkk
                rw [show s'.index
                    = mapSet (mapDel s.index (toLowerStr fromNick)) (toLowerStr toNick) p
                    from rfl, mapGet_set_self] at hk
                have hpq : p = q := by injection hk
                subst hpq
                exact ⟨hp, by rw [hresp, hnick']⟩
              · rw [show s'.index
                    = mapSet (mapDel s.index (toLowerStr fromNick)) (toLowerStr toNick) p
                    from rfl, mapGet_set_ne _ _ _ _ hkk] at hk
                by_cases hkf : k = toLowerStr fromNick
                · subst hkf
                  rw [mapGet_del_self] at hk
                  exact Option.noConfusion hk
                · rw [mapGet_del_ne _ _ _ hkf] at hk
                  obtain ⟨hmem, hkey⟩ := h.idxSound k q hk
                  have hqp : q ≠ p := by
                    intro hqe
                    subst hqe
                    rw [hkeyp] at hkey
                    exact hkf hkey.symm
                  exact ⟨hmem, by rw [hresq q hqp]; exact hkey⟩
            · intro q hq
              by_cases hqp : q = p
              · subst hqp
                rw [hresp, hnick']
                exact mapGet_set_self _ _ _
              · rw [hresq q hqp]
                have hne1 : toLowerStr (resolveU s q).nick ≠ toLowerStr toNick :=
                  hnotold q hq
                have hne2 : toLowerStr (resolveU s q).nick ≠ toLowerStr fromNick := by
                  intro hqe
                  rw [← hkeyp] at hqe
                  exact hqp (h.keyInj q hq p hp hqe)
                rw [show s'.index
                    = mapSet (mapDel s.index (toLowerStr fromNick)) (toLowerStr toNick) p
                    from rfl, mapGet_set_ne _ _ _ _ hne1, mapGet_del_ne _ _ _ hne2]
                exact h.idxComplete q hq
            · intro v hv
              rcases List.mem_or_eq_of_mem_set hv with hmem | rfl
              · exact h.pfx v hmem
              · rw [hu']
                exact (refreshPrefixedNick_fields _).1
            · intro v hv c hc
              rcases List.mem_or_eq_of_mem_set hv with hmem | rfl
              · exact h.goodModes v hmem c hc
              · rw [hu', (refreshPrefixedNick_fields _).2.2.1] at hc
                exact h.goodModes (resolveU s p) (getD_mem s.arena p zeroUser plen) c hc
          exact finish_branch su s' hpre

theorem removeOp_inv (su : SupportState) (s : Userlist) (nick : GoStr)
    (h : ListInv su s) : ListInv su (removeOp s nick).1 := by
  cases hf : mapGet s.index (toLowerStr nick) with
  | none =>
      have heq : (removeOp s nick).1 = s := by
        simp [removeOp, hf]
      rw [heq]; exact h
  | some p =>
      obtain ⟨hp, hkeyp⟩ := h.idxSound _ p hf
      set s' : Userlist :=
        { s with users := s.users.erase p, index := mapDel s.index (toLowerStr nick) } with hs'
      have heq : (removeOp s nick).1 = s' := by
        simp only [removeOp, hf, ← hs']
      rw [heq]
      have hmem_erase : ∀ q, q ∈ s.users.erase p ↔ q ≠ p ∧ q ∈ s.users := by
        intro q
        exact h.usersNodup.mem_erase_iff
      refine ⟨?_, ?_, ?_, ?_, ?_, ?_, ?_⟩
      · intro q hq
        exact h.ptrs q ((hmem_erase q).mp hq).2
      · exact h.keysNodup.sublist ((s.users.erase_sublist p).map _)
      · intro k q hk
        by_cases hkk : k = toLowerStr nick
        · subst hkk
          rw [show s'.index = mapDel s.index (toLowerStr nick) from rfl, mapGet_del_self] at hk
          exact Option.noConfusion hk
        · rw [show s'.index = mapDel s.index (toLowerStr nick) from rfl,
            mapGet_del_ne _ _ _ hkk] at hk
          obtain ⟨hmem, hkey⟩ := h.idxSound k q hk
          refine ⟨(hmem_erase q).mpr ⟨?_, hmem⟩, hkey⟩
          intro hqe
          subst hqe
          rw [hkeyp] at hkey
          exact hkk hkey.symm
      · intro q hq
        obtain ⟨hqne, hqmem⟩ := (hmem_erase q).mp hq
        have hne1 : toLowerStr (resolveU s q).nick ≠ toLowerStr nick := by
          intro hqe
          rw [← hkeyp] at hqe
          exact hqne (h.keyInj q hqmem p hp hqe)
        have hres : resolveU s' q = resolveU s q := rfl
        rw [hres, show s'.index = mapDel s.index (toLowerStr nick) from rfl,
          mapGet_del_ne _ _ _ hne1]
        exact h.idxComplete q hqmem
      · exact h.pfx
      · exact h.goodModes
      · intro haut
        exact (h.sorted haut).sublist (s.users.erase_sublist p)

theorem setAutoSortOp_inv (su : SupportState) (s : Userlist) (b : Bool)
    (h : ListInv su s) : ListInv su (setAutoSortOp su s b) := by
  unfold setAutoSortOp
  have hpre : PreInv su { s with autosort := b } :=
    ⟨h.ptrs, h.keysNodup, h.idxSound, h.idxComplete, h.pfx, h.goodModes⟩
  exact hpre.sort

theorem insertNamesOp_inv (su : SupportState) (s : Userlist) (tok : GoStr)
    (h : ListInv su s) : ListInv su (insertNamesOp su s tok).1 :=
  insertUser_inv su s (parseNamesToken su tok) h

theorem applyOp_inv (su : SupportState) (s : Userlist) (op : ListOp)
    (h : ListInv su s) : ListInv su (applyOp su s op) := by
  cases op with
  | insert u => exact insertUser_inv su s u h
  | insertNames tok => exact insertNamesOp_inv su s tok h
  | addMode n m => exact addModeOp_inv su s n m h
  | removeMode n m => exact removeModeOp_inv su s n m h
  | rename f t => exact renameOp_inv su s f t h
  | remove n => exact removeOp_inv su s n h
  | patch n pt => exact patchOp_inv su s n pt h
  | setAutoSort b => exact setAutoSortOp_inv su s b h

theorem runOps_inv (su : SupportState) (ops : List ListOp) :
    ListInv su (runOps su ops) := by
  unfold runOps
  have hgen : ∀ (l : List ListOp) (s : Userlist), ListInv su s →
      ListInv su (l.foldl (applyOp su) s) := by
    intro l
    induction l with
    | nil => intro s hs; exact hs
    | cons op rest ih =>
        intro s hs
        exact ih (applyOp su s op) (applyOp_inv su s op hs)
  exact hgen ops Userlist.new (ListInv.new su)

/-! ## Claims C6, C9, C10 -/

/-- C6 (amended): after any operation sequence from the fresh list, the
index is exactly sound and complete for the present members' case-folded
nicks, every member's `prefixedNick` equals `prefixes[0] + nick` (the bare
nick when prefixes are empty), and — whenever autosort is enabled — the
member list ascends by (highest-mode rank, case-folded nick).  The claim's
unconditional sortedness fails once `SetAutoSort(false)` is in the
sequence (see the unsorted-state counterexample). -/
theorem userlist_invariants (su : SupportState) (ops : List ListOp) :
    (∀ k p, mapGet (runOps su ops).index k = some p →
        p ∈ (runOps su ops).users ∧ toLowerStr (resolveU (runOps su ops) p).nick = k)
    ∧ (∀ p ∈ (runOps su ops).users,
        mapGet (runOps su ops).index (toLowerStr (resolveU (runOps su ops) p).nick) = some p)
    ∧ (∀ p ∈ (runOps su ops).users,
        (resolveU (runOps su ops) p).prefixedNick = specPrefixedNick (resolveU (runOps su ops) p))
    ∧ ((runOps su ops).autosort = true → sortedByRankNick su (runOps su ops)) := by
  have h := runOps_inv su ops
  refine ⟨h.idxSound, h.idxComplete, ?_, ?_⟩
  · intro p hp
    exact h.pfx (resolveU (runOps su ops) p)
      (getD_mem (runOps su ops).arena p zeroUser (h.ptrs p hp))
  · intro haut
    exact sortedByRankNick_of_pairwise su _ h.goodArena (h.sorted haut)

theorem userlist_invariants_witness :
    (runOps SupportState.empty
        [ListOp.insert ⟨gs "b", [], [], [], [], [], []⟩,
         ListOp.insert ⟨gs "a", [], [], [], [], [], []⟩]).autosort = true
    ∧ sortedByRankNick SupportState.empty (runOps SupportState.empty
        [ListOp.insert ⟨gs "b", [], [], [], [], [], []⟩,
         ListOp.insert ⟨gs "a", [], [], [], [], [], []⟩]) :=
  ⟨by decide,
   (userlist_invariants SupportState.empty
      [ListOp.insert ⟨gs "b", [], [], [], [], [], []⟩,
       ListOp.insert ⟨gs "a", [], [], [], [], [], []⟩]).2.2.2 (by decide)⟩

/-- After `SetAutoSort(false)`, inserting `b` then `a` leaves the members
in insertion order `[b, a]`, which is not ascending by folded nick: the
claim's unconditional sortedness is false. -/
theorem userlist_unsorted_after_autosort_off :
    ¬ sortedByRankNick SupportState.empty (runOps SupportState.empty
        [ListOp.setAutoSort false,
         ListOp.insert ⟨gs "b", [], [], [], [], [], []⟩,
         ListOp.insert ⟨gs "a", [], [], [], [], [], []⟩]) := by decide

/-- `List.Patch` on a found user rewrites it in place with the three
conditional field updates, touching nothing else. -/
theorem patchOp_eq (s : Userlist) (nick : GoStr) (pt : GoUserPatch) (p : Nat)
    (hfind : s.users.find? (fun q => toLowerStr (resolveU s q).nick = toLowerStr nick)
      = some p) :
    patchOp s nick pt =
      ({ s with arena := s.arena.set p { resolveU s p with
            account := if pt.account ≠ [] ∨ pt.clearAccount = true then pt.account
                       else (resolveU s p).account
            user := if pt.user ≠ [] then pt.user else (resolveU s p).user
            host := if pt.host ≠ [] then pt.host else (resolveU s p).host } }, true) := by
  by_cases h1 : pt.account ≠ [] ∨ pt.clearAccount = true <;>
  by_cases h2 : pt.user ≠ [] <;>
  by_cases h3 : pt.host ≠ [] <;>
    simp [patchOp, hfind, h1, h2, h3]

/-- C9 (amended): when a user folded-equal to `nick` is found (the scan
takes the first match in member order), `Patch` returns true, leaves the
member list, index, autosort flag, the user's nick, modes, prefixes and
prefixed nick, and every other user untouched, and updates the found
user's account, user and host by the source's conditions: account is
overwritten with `patch.Account` when that is non-empty **or** the clear
flag is set (so `ClearAccount` together with a non-empty `Account` stores
the non-empty value instead of clearing), user and host only when
non-empty.  This revision's `User`/`UserPatch` have no Away field and no
away-clear flag. -/
theorem patchOp_semantics (s : Userlist) (nick : GoStr) (pt : GoUserPatch) (p : Nat)
    (hfind : s.users.find? (fun q => toLowerStr (resolveU s q).nick = toLowerStr nick)
      = some p)
    (hp : p < s.arena.length) :
    (patchOp s nick pt).2 = true
    ∧ (patchOp s nick pt).1.users = s.users
    ∧ (patchOp s nick pt).1.index = s.index
    ∧ (patchOp s nick pt).1.autosort = s.autosort
    ∧ (resolveU (patchOp s nick pt).1 p).nick = (resolveU s p).nick
    ∧ (resolveU (patchOp s nick pt).1 p).modes = (resolveU s p).modes
    ∧ (resolveU (patchOp s nick pt).1 p).prefixes = (resolveU s p).prefixes
    ∧ (resolveU (patchOp s nick pt).1 p).prefixedNick = (resolveU s p).prefixedNick
    ∧ (resolveU (patchOp s nick pt).1 p).account
        = (if pt.account ≠ [] ∨ pt.clearAccount = true then pt.account
           else (resolveU s p).account)
    ∧ (resolveU (patchOp s nick pt).1 p).user
        = (if pt.user ≠ [] then pt.user else (resolveU s p).user)
    ∧ (resolveU (patchOp s nick pt).1 p).host
        = (if pt.host ≠ [] then pt.host else (resolveU s p).host)
    ∧ (∀ q, q ≠ p → resolveU (patchOp s nick pt).1 q = resolveU s q) := by
  set ua := if pt.account ≠ [] ∨ pt.clearAccount = true then pt.account
            else (resolveU s p).account with hua
  set uu := if pt.user ≠ [] then pt.user else (resolveU s p).user with huu
  set uh := if pt.host ≠ [] then pt.host else (resolveU s p).host with huh
  have heq := patchOp_eq s nick pt p hfind
  rw [← hua, ← huu, ← huh] at heq
  set U : ChanUser := { resolveU s p with account := ua, user := uu, host := uh } with hU
  rw [heq]
  have hres : resolveU { s with arena := s.arena.set p U } p = U :=
    getD_set_self s.arena p U zeroUser hp
  refine ⟨rfl, rfl, rfl, rfl, ?_, ?_, ?_, ?_, ?_, ?_, ?_, ?_⟩
  · rw [hres, hU]
  · rw [hres, hU]
  · rw [hres, hU]
  · rw [hres, hU]
  · rw [hres, hU]
  · rw [hres, hU]
  · rw [hres, hU]
  · intro q hq
    exact getD_set_ne s.arena p q U zeroUser (fun hh => hq hh.symm)

theorem patchOp_semantics_witness :
    ((Userlist.mk [⟨gs "Ann", [], [], gs "old", [], [], gs "Ann"⟩] [0] [(gs "ann", 0)]
        true).users.find?
      (fun q => toLowerStr (resolveU (Userlist.mk
          [⟨gs "Ann", [], [], gs "old", [], [], gs "Ann"⟩] [0] [(gs "ann", 0)] true) q).nick
        = toLowerStr (gs "Ann")) = some 0
      ∧ 0 < (Userlist.mk [⟨gs "Ann", [], [], gs "old", [], [], gs "Ann"⟩] [0] [(gs "ann", 0)]
        true).arena.length)
    ∧ (patchOp (Userlist.mk [⟨gs "Ann", [], [], gs "old", [], [], gs "Ann"⟩] [0]
        [(gs "ann", 0)] true) (gs "Ann") ⟨gs "joe", [], [], false⟩).2 = true :=
  ⟨⟨by decide, by decide⟩,
   (patchOp_semantics (Userlist.mk [⟨gs "Ann", [], [], gs "old", [], [], gs "Ann"⟩] [0]
      [(gs "ann", 0)] true) (gs "Ann") ⟨gs "joe", [], [], false⟩ 0
      (by decide) (by decide)).1⟩

/-- `ClearAccount` set together with a non-empty patch `Account` stores the
non-empty value: the account is not zeroed, refuting the claim's `explicit
clear flags zero the Account field`. -/
theorem patchOp_clearAccount_overridden :
    (resolveU (patchOp (Userlist.mk [⟨gs "Ann", [], [], gs "old", [], [], gs "Ann"⟩] [0]
        [(gs "ann", 0)] true) (gs "Ann") ⟨[], [], gs "x", true⟩).1 0).account = gs "x"
    ∧ (resolveU (patchOp (Userlist.mk [⟨gs "Ann", [], [], gs "old", [], [], gs "Ann"⟩] [0]
        [(gs "ann", 0)] true) (gs "Ann") ⟨[], [], gs "x", true⟩).1 0).account ≠ [] := by
  refine ⟨by decide, by decide⟩

/-- C10: a case-only respelling of an existing nick is rejected.  When the
target nick differs from the source nick as bytes but folds to the same
key, the index lookup on the target key finds the user itself, so
`List.Rename` returns false and the list is unchanged. -/
theorem rename_case_only_rejected (su : SupportState) (s : Userlist)
    (fromNick toNick : GoStr) (p : Nat)
    (hne : fromNick ≠ toNick)
    (hfold : toLowerStr fromNick = toLowerStr toNick)
    (hf : mapGet s.index (toLowerStr fromNick) = some p) :
    renameOp su s fromNick toNick = (s, false) := by
  have hsome : (mapGet s.index (toLowerStr toNick)).isSome = true := by
    rw [← hfold, hf]; rfl
  have hneP : (fromNick = toNick) = False := eq_false hne
  have hsomeP : ((mapGet s.index (toLowerStr toNick)).isSome = true) = True := eq_true hsome
  simp only [renameOp, hf, hneP, if_false, hsomeP, if_true]

theorem rename_case_only_rejected_witness :
    ((gs "Nick" : GoStr) ≠ gs "NICK"
      ∧ toLowerStr (gs "Nick") = toLowerStr (gs "NICK")
      ∧ mapGet (Userlist.mk [⟨gs "Nick", [], [], [], [], [], gs "Nick"⟩] [0]
          [(gs "nick", 0)] true).index (toLowerStr (gs "Nick")) = some 0)
    ∧ renameOp SupportState.empty
        (Userlist.mk [⟨gs "Nick", [], [], [], [], [], gs "Nick"⟩] [0] [(gs "nick", 0)] true)
        (gs "Nick") (gs "NICK")
      = (Userlist.mk [⟨gs "Nick", [], [], [], [], [], gs "Nick"⟩] [0] [(gs "nick", 0)] true,
         false) :=
  ⟨⟨by decide, by decide, by decide⟩,
   rename_case_only_rejected SupportState.empty
     (Userlist.mk [⟨gs "Nick", [], [], [], [], [], gs "Nick"⟩] [0] [(gs "nick", 0)] true)
     (gs "Nick") (gs "NICK") 0 (by decide) (by decide) (by decide)⟩

end IrcProof
